import Mathlib

/-!
Shallow embedding of the context-aware text relocation and patch engine
(`TextProcessor` from `src/lib/text-processor.ts`) together with proofs of
the specification's claims about it.  Host-language strings are modelled as
`String`/`List Char`; host numbers (which in this module only ever take
half-integer values produced by exact additions) are modelled as `ℚ`; the
file system is modelled as an association list from paths to file contents.
-/

namespace TextProcessor

/-- Whitespace characters recognised by the host runtime's `trim` and by the
whitespace character class of its pattern language. -/
def isJsWs (c : Char) : Bool :=
  [9, 10, 11, 12, 13, 32, 160, 5760, 8192, 8193, 8194, 8195, 8196, 8197,
    8198, 8199, 8200, 8201, 8202, 8232, 8233, 8239, 8287, 12288, 65279].contains c.toNat

/-- Drop the longest suffix of `l` all of whose characters satisfy `p`. -/
def dropLastWhile (p : Char → Bool) (l : List Char) : List Char :=
  (l.reverse.dropWhile p).reverse

/-- The host `trim`: strip leading and trailing whitespace. -/
def trimL (l : List Char) : List Char :=
  dropLastWhile isJsWs (l.dropWhile isJsWs)

/-- String-level wrapper for `trimL`. -/
def jsTrim (s : String) : String :=
  String.mk (trimL s.data)

/-- Does `l` contain `pat` as a contiguous substring? -/
def hasSub (pat l : List Char) : Bool :=
  match l with
  | [] => pat.isEmpty
  | _ :: rest => pat.isPrefixOf l || hasSub pat rest

/-- The host `String.prototype.includes`. -/
def jsIncludes (s pat : String) : Bool :=
  hasSub pat.data s.data

/-- Replacement of every (leftmost, non-overlapping) occurrence of the
non-empty pattern `pat` by `rep`; `fuel` bounds the recursion depth and is
instantiated with the length of the scanned list, which each step shortens
by at least one character. -/
def replaceAllGo (pat rep : List Char) : Nat → List Char → List Char
  | 0, l => l
  | _ + 1, [] => []
  | fuel + 1, c :: rest =>
    if pat.isPrefixOf (c :: rest) then
      rep ++ replaceAllGo pat rep fuel (rest.drop (pat.length - 1))
    else
      c :: replaceAllGo pat rep fuel rest

/-- The host `replace` with a global pattern: replaces every occurrence of
`pat` by `rep`; an empty pattern inserts `rep` around every character. -/
def replaceAllL (pat rep : List Char) (l : List Char) : List Char :=
  if pat.isEmpty then rep ++ l.flatMap (fun c => c :: rep)
  else replaceAllGo pat rep l.length l

/-- Replacement of the first occurrence of `pat` by `rep` (the host `replace`
with a plain-string pattern). -/
def replaceFirstL (pat rep : List Char) (l : List Char) : List Char :=
  match l with
  | [] => if pat.isEmpty then rep else []
  | c :: rest =>
    if pat.isPrefixOf (c :: rest) then rep ++ (c :: rest).drop pat.length
    else c :: replaceFirstL pat rep rest

/-- String-level first-occurrence replacement. -/
def jsReplaceFirst (s pat rep : String) : String :=
  String.mk (replaceFirstL pat.data rep.data s.data)

/-- String-level global replacement. -/
def jsReplaceAll (s pat rep : String) : String :=
  String.mk (replaceAllL pat.data rep.data s.data)

/-- Replace every character belonging to `as` by the character sequence `r`
(a character-class global replacement). -/
def replaceChars (as : List Char) (r : List Char) (l : List Char) : List Char :=
  l.flatMap (fun c => if as.contains c then r else [c])

/-- Worker for `collapseWs`; the flag records whether the previous character
was whitespace (in which case further whitespace is absorbed into the same
run). -/
def collapseWsAux : Bool → List Char → List Char
  | _, [] => []
  | prevWs, c :: rest =>
    if isJsWs c then
      if prevWs then collapseWsAux true rest
      else ' ' :: collapseWsAux true rest
    else c :: collapseWsAux false rest

/-- Collapse every maximal run of whitespace to a single space. -/
def collapseWs (l : List Char) : List Char :=
  collapseWsAux false l

/-- The named entity table of `cleanSearchText`, in source order. -/
def entityPairs : List (String × String) :=
  [("&ldquo;", "\""), ("&rdquo;", "\""), ("&lsquo;", "'"), ("&rsquo;", "'"),
   ("&quot;", "\""), ("&#39;", "'"), ("&amp;", "&"), ("&lt;", "<"),
   ("&gt;", ">"), ("&ndash;", "-"), ("&mdash;", "-"), ("&nbsp;", " "),
   ("&hellip;", "...")]

/-- Quote-like characters stripped from the ends of a cleaned search text
(the code points tested by `charCodeAt` in `cleanSearchText`). -/
def isStripQuote (c : Char) : Bool :=
  [8220, 8221, 8216, 8217, 34, 39, 8222, 8218].contains c.toNat

/-- Core of the text normalizer on character lists; see `cleanSearchText`. -/
def cleanList (l : List Char) : List Char :=
  let c0 := trimL l
  let c1 := entityPairs.foldl (fun acc p => replaceAllL p.1.data p.2.data acc) c0
  let c2 := replaceChars [Char.ofNat 0x00A0] [' '] c1
  let c3 := replaceChars [Char.ofNat 0x2026] ['.', '.', '.'] c2
  let c4 := replaceChars [Char.ofNat 0x201C, Char.ofNat 0x201D] ['"'] c3
  let c5 := replaceChars [Char.ofNat 0x2018, Char.ofNat 0x2019] ['\''] c4
  let c6 := replaceChars [Char.ofNat 0x201E] ['"'] c5
  let c7 := replaceChars [Char.ofNat 0x201A] ['\''] c6
  let c8 := collapseWs c7
  let c9 := c8.dropWhile isStripQuote
  let c10 := dropLastWhile isStripQuote c9
  let c11 := if c10.getLast? = some '.' then c10.dropLast else c10
  trimL c11

/-- The text normalizer `cleanSearchText`: trim, decode the fixed entity
table, normalize special quote/space/ellipsis characters, collapse
whitespace, strip leading/trailing quote characters, strip one trailing
period, and trim again. -/
def cleanSearchText (text : String) : String :=
  String.mk (cleanList text.data)

/-- ASCII lower-casing of a string (the host `toLowerCase` restricted to the
character repertoire this module manipulates). -/
def jsToLower (s : String) : String :=
  String.mk (s.data.map Char.toLower)

/-- Quote normalization local to the variation generator
`extractDynamicPart`: map typographic quotes and guillemets to ASCII quotes,
non-breaking space and ellipsis to their plain forms, and collapse
whitespace.  Unlike `cleanSearchText` it neither trims nor strips edges. -/
def normalizeQuotes (str : String) : String :=
  let n0 := replaceChars [Char.ofNat 0x201C, Char.ofNat 0x201D] ['"'] str.data
  let n1 := replaceChars [Char.ofNat 0x2018, Char.ofNat 0x2019] ['\''] n0
  let n2 := replaceChars [Char.ofNat 0x201E] ['"'] n1
  let n3 := replaceChars [Char.ofNat 0x201A] ['\''] n2
  let n4 := replaceChars [Char.ofNat 0x00AB, Char.ofNat 0x00BB] ['"'] n3
  let n5 := replaceChars [Char.ofNat 0x2039, Char.ofNat 0x203A] ['\''] n4
  let n6 := replaceChars [Char.ofNat 0x00A0] [' '] n5
  let n7 := replaceChars [Char.ofNat 0x2026] ['.', '.', '.'] n6
  String.mk (collapseWs n7)

/-- Quote-like characters stripped from both edges by the variation
generator's quote-wrapping removal. -/
def edgeQuoteChars : List Char :=
  ['"', '\'', Char.ofNat 0x201E, Char.ofNat 0x201C, Char.ofNat 0x201D,
   Char.ofNat 0x201A, Char.ofNat 0x2018, Char.ofNat 0x2019, Char.ofNat 0x00AB,
   Char.ofNat 0x00BB, Char.ofNat 0x2039, Char.ofNat 0x203A]

/-- Remove runs of quote-like characters from both ends, then trim. -/
def stripEdgeQuotes (s : String) : String :=
  jsTrim (String.mk (dropLastWhile edgeQuoteChars.contains
    (s.data.dropWhile edgeQuoteChars.contains)))

/-- Decorative glyphs accepted as a strippable leading/trailing marker
(first decorative character class of the variation generator). -/
def emojiGlyphs : List Char :=
  [0x274C, 0x2705, 0x1F525, 0x1F4A1, 0x1F4DA, 0x2B50, 0x1F3AF, 0x1F680,
   0x1F4AA, 0x1F31F, 0x2728, 0x1F389, 0x1F514, 0x1F4DD, 0x1F4B0, 0x1F3C6,
   0x1F381, 0x1F50D, 0x1F4CA, 0x1F3AA, 0x1F3A8, 0x1F3B5, 0x1F3AE,
   0x1F3B2].map Char.ofNat

/-- Simple decorative symbols accepted as a strippable leading/trailing
marker (second decorative character class of the variation generator). -/
def symbolGlyphs : List Char :=
  [0x2713, 0x00D7, 0x2022, 0x2192, 0x2190, 0x2191, 0x2193, 0x2605, 0x2606,
   0x2666, 0x2660, 0x2663, 0x2665].map Char.ofNat

/-- Strip one leading character from `set` followed by optional whitespace. -/
def stripLeadGlyph (set : List Char) (l : List Char) : List Char :=
  match l with
  | [] => []
  | c :: rest => if set.contains c then rest.dropWhile isJsWs else l

/-- Strip a leading numbering marker: digits, a period, optional whitespace. -/
def stripLeadNumbering (l : List Char) : List Char :=
  let ds := l.takeWhile Char.isDigit
  if ds.isEmpty then l
  else
    match l.drop ds.length with
    | '.' :: rest => rest.dropWhile isJsWs
    | _ => l

/-- Strip a leading letter-with-parenthesis marker such as `a)`. -/
def stripLeadLetterParen (l : List Char) : List Char :=
  match l with
  | c :: ')' :: rest => if c.isAlpha then rest.dropWhile isJsWs else l
  | _ => l

/-- Strip one trailing character from `set` preceded by optional whitespace. -/
def stripTrailGlyph (set : List Char) (l : List Char) : List Char :=
  match l.getLast? with
  | some c => if set.contains c then dropLastWhile isJsWs l.dropLast else l
  | none => l

/-- The five leading decorative-marker patterns, in source order. -/
def staticPrefixStrips : List (List Char → List Char) :=
  [stripLeadGlyph emojiGlyphs, stripLeadGlyph symbolGlyphs,
   stripLeadNumbering, stripLeadLetterParen,
   stripLeadGlyph ['-', Char.ofNat 0x2022]]

/-- The two trailing decorative-marker patterns, in source order. -/
def staticSuffixStrips : List (List Char → List Char) :=
  [stripTrailGlyph emojiGlyphs, stripTrailGlyph symbolGlyphs]

/-- Order-preserving de-duplication (the host `Array.from(new Set(...))`). -/
def jsSetDedup (l : List String) : List String :=
  l.foldl (fun acc x => if acc.contains x then acc else acc ++ [x]) []

/-- The variation generator `extractDynamicPart`: the text itself, its
quote-normalized form, the quote-unwrapped forms, and the forms with one
decorative leading/trailing marker stripped, de-duplicated in first-seen
order. -/
def extractDynamicPart (text : String) : List String :=
  let variations := [text]
  let normalizedText := normalizeQuotes text
  let variations := variations ++
    (if normalizedText ≠ text then [normalizedText] else [])
  let withoutQuotes := stripEdgeQuotes text
  let variations := variations ++
    (if withoutQuotes ≠ "" ∧ withoutQuotes ≠ text then
      [withoutQuotes] ++
        (if normalizeQuotes withoutQuotes ≠ withoutQuotes then
          [normalizeQuotes withoutQuotes] else [])
    else [])
  let variations := staticPrefixStrips.foldl (fun vs f =>
    let withoutPre := jsTrim (String.mk (f text.data))
    if withoutPre ≠ "" ∧ withoutPre ≠ text then
      vs ++ [withoutPre] ++
        (if normalizeQuotes withoutPre ≠ withoutPre then
          [normalizeQuotes withoutPre] else [])
    else vs) variations
  let variations := staticSuffixStrips.foldl (fun vs f =>
    let withoutSuf := jsTrim (String.mk (f text.data))
    if withoutSuf ≠ "" ∧ withoutSuf ≠ text then
      vs ++ [withoutSuf] ++
        (if normalizeQuotes withoutSuf ≠ withoutSuf then
          [normalizeQuotes withoutSuf] else [])
    else vs) variations
  jsSetDedup variations

/-- A word character of the host pattern language (letters, digits,
underscore). -/
def isWordChar (c : Char) : Bool :=
  c.isAlphanum || c = '_'

/-- Does `w` begin with a case-insensitive copy of `v`? -/
def lowerEqPre (v w : List Char) : Bool :=
  decide (v.length ≤ w.length) &&
    (w.take v.length).map Char.toLower == v.map Char.toLower

/-- Does `r` match `[^close]* v [^close]* close` (the tail of an attribute
pattern after its opening delimiter), with `v` compared case-insensitively? -/
def attrInner (close : Char) (v r : List Char) : Bool :=
  (List.range (r.length + 1)).any (fun i =>
    ((r.take i).all (fun c => c ≠ close)) && lowerEqPre v (r.drop i) &&
      ((r.drop (i + v.length)).contains close))

/-- After `identifier =`, skip whitespace, require the opening delimiter `o`
and match the value part against `attrInner`. -/
def attrAfterEq (o close : Char) (v t3 : List Char) : Bool :=
  match t3.dropWhile isJsWs with
  | q :: r => q = o && attrInner close v r
  | [] => false

/-- Does an attribute construct `identifier = o ... v ... close` start at the
head of `t`? -/
def attrTry (o close : Char) (v t : List Char) : Bool :=
  match t with
  | [] => false
  | c :: _ =>
    isWordChar c &&
      (match (t.dropWhile isWordChar).dropWhile isJsWs with
       | '=' :: t3 => attrAfterEq o close v t3
       | _ => false)

/-- Does some position of `line` start an attribute construct carrying `v`? -/
def attrMatchAt (o close : Char) (v line : List Char) : Bool :=
  line.tails.any (attrTry o close v)

/-- The classifier `isAttributeMatch`: the variation sits inside a
`key="value"`, `key='value'` or `key={value}` construct. -/
def isAttributeMatch (line variation : String) : Bool :=
  attrMatchAt '"' '"' variation.data line.data ||
  attrMatchAt '\'' '\'' variation.data line.data ||
  attrMatchAt '\x7b' '\x7d' variation.data line.data

/-- The content-bearing attribute vocabulary. -/
def contentAttributes : List String :=
  ["quote=", "title=", "alt=", "placeholder=", "label=", "content=",
   "description=", "text=", "value=", "message=", "caption="]

/-- Blank every delimited span `o ... close` to the empty span `o close`;
`fuel` bounds recursion depth and is instantiated with the list length. -/
def blankDelimGo (o close : Char) : Nat → List Char → List Char
  | 0, l => l
  | _ + 1, [] => []
  | fuel + 1, c :: rest =>
    if c = o then
      match rest.findIdx? (fun d => d = close) with
      | some i => o :: close :: blankDelimGo o close fuel (rest.drop (i + 1))
      | none => c :: rest
    else c :: blankDelimGo o close fuel rest

/-- String-level wrapper for `blankDelimGo`. -/
def blankDelim (o close : Char) (s : String) : String :=
  String.mk (blankDelimGo o close s.data.length s.data)

/-- The classifier `isTextContentMatch`: true when the match is not purely
inside an attribute, or the line carries a content-bearing attribute key, or
the match survives after all quoted/braced spans are blanked out. -/
def isTextContentMatch (line variation : String) : Bool :=
  if !(isAttributeMatch line variation) then true
  else
    let hasContentAttribute := contentAttributes.any (fun attr =>
      jsIncludes (jsToLower line) (jsToLower attr) && jsIncludes line variation)
    if hasContentAttribute then true
    else
      let l1 := blankDelim '"' '"' line
      let l2 := blankDelim '\'' '\'' l1
      let l3 := blankDelim '\x7b' '\x7d' l2
      jsIncludes l3 variation

/-- The bounded-syntactic exact-match predicate `hasExactTextMatch`: the
search text appears wrapped in quotes or entity quotes, in a quoted
key/value position, as (nearly) the sole line content, or between two
angle-bracket delimiters. -/
def hasExactTextMatch (line searchText : String) : Bool :=
  let basicQuotedPatterns : List String :=
    ["\"" ++ searchText ++ "\"",
     "'" ++ searchText ++ "'",
     "\x60" ++ searchText ++ "\x60",
     "&quot;" ++ searchText ++ "&quot;",
     "&ldquo;" ++ searchText ++ "&rdquo;"]
  if basicQuotedPatterns.any (fun p => jsIncludes line p) then true else
  let simplePatterns : List String :=
    ["=\"" ++ searchText ++ "\"",
     "='" ++ searchText ++ "'",
     ": \"" ++ searchText ++ "\"",
     ": '" ++ searchText ++ "'",
     "quote=\"" ++ searchText ++ "\"",
     "quote='" ++ searchText ++ "'",
     "text: '" ++ searchText ++ "'",
     "text: \"" ++ searchText ++ "\""]
  if simplePatterns.any (fun p => jsIncludes line p) then true else
  let withPunctuation : List String :=
    ["\"" ++ searchText ++ ".\"",
     "'" ++ searchText ++ ".'",
     "\"" ++ searchText ++ "!\"",
     "'" ++ searchText ++ "!'",
     "\"" ++ searchText ++ "?\"",
     "'" ++ searchText ++ "?'",
     "\"" ++ searchText ++ ".\",",
     "'" ++ searchText ++ ".',",
     "\"" ++ searchText ++ "\",",
     "'" ++ searchText ++ "',",
     "quote=\"" ++ searchText ++ ".\"",
     "quote='" ++ searchText ++ ".'",
     "text: '" ++ searchText ++ ".',",
     "text: \"" ++ searchText ++ ".\",",
     "text: '" ++ searchText ++ ".'",
     "text: \"" ++ searchText ++ ".\"",
     "&quot;" ++ searchText ++ ".&quot;",
     "&quot;" ++ searchText ++ "&quot;",
     "&ldquo;" ++ searchText ++ "!&rdquo;",
     "&ldquo;" ++ searchText ++ ".&rdquo;",
     "&ldquo;" ++ searchText ++ "&rdquo;"]
  if withPunctuation.any (fun p => jsIncludes line p) then true else
  let trimmedLine := jsTrim line
  if trimmedLine = searchText ∨ trimmedLine = "\"" ++ searchText ++ "\"" ∨
      trimmedLine = "'" ++ searchText ++ "'" then true else
  if jsIncludes line (">" ++ searchText ++ "<") then true else
  if trimmedLine = searchText ∨ trimmedLine = searchText ++ "." ∨
      trimmedLine = searchText ++ "!" ∨ trimmedLine = searchText ++ "?" then true
  else false

/-- First index at which `pat` occurs in `l` (the host `indexOf`). -/
def firstIdxOfSub (pat l : List Char) : Option Nat :=
  (List.range (l.length + 1)).find? (fun i => pat.isPrefixOf (l.drop i))

/-- The leftmost quoted span `q ... q` (with `q` a straight quote or
backtick and the content free of straight quotes) starting at the head of
`l`, returning its content. -/
def quotedMatchAt (l : List Char) : Option (List Char) :=
  match l with
  | [] => none
  | c :: rest =>
    if c = '"' ∨ c = '\'' then
      let run := rest.takeWhile (fun d => d ≠ '\'' ∧ d ≠ '"')
      if (rest.drop run.length).head? = some c then some run else none
    else if c = '\x60' then
      let run := rest.takeWhile (fun d => d ≠ '\'' ∧ d ≠ '"')
      match run.reverse.findIdx? (fun d => d = '\x60') with
      | some j => some (run.take (run.length - 1 - j))
      | none => none
    else none

/-- The content of the leftmost quoted span anywhere in `l`. -/
def firstQuotedMatch (l : List Char) : Option (List Char) :=
  match l with
  | [] => none
  | _ :: rest =>
    match quotedMatchAt l with
    | some g => some g
    | none => firstQuotedMatch rest

/-- A character allowed in the body of an HTML entity reference. -/
def isEntityBodyChar (c : Char) : Bool :=
  c.isAlphanum || c = '#'

/-- The entity reference (`&name;`) starting at the head of `l`, if any. -/
def entityAt (l : List Char) : Option (List Char) :=
  match l with
  | '&' :: rest =>
    let run := rest.takeWhile isEntityBodyChar
    if run.isEmpty then none
    else
      match (rest.drop run.length).head? with
      | some ';' => some ('&' :: run ++ [';'])
      | _ => none
  | _ => none

/-- Walk `l`, consuming source characters until `k` normalized characters
have been skipped (entities count for the length of their normalized form);
returns the unconsumed remainder.  `fuel` is instantiated with the length of
`l`. -/
def skipNormGo : Nat → List Char → Nat → List Char
  | 0, l, _ => l
  | fuel + 1, l, k =>
    if k = 0 then l
    else
      match l with
      | [] => []
      | c :: rest =>
        match entityAt (c :: rest) with
        | some e => skipNormGo fuel ((c :: rest).drop e.length) (k - (cleanList e).length)
        | none => skipNormGo fuel rest (k - (cleanList [c]).length)

/-- Like `skipNormGo` but returns how many source characters are consumed to
cover `k` normalized characters. -/
def takeNormGo : Nat → List Char → Nat → Nat
  | 0, _, _ => 0
  | fuel + 1, l, k =>
    if k = 0 then 0
    else
      match l with
      | [] => 0
      | c :: rest =>
        match entityAt (c :: rest) with
        | some e =>
          e.length + takeNormGo fuel ((c :: rest).drop e.length) (k - (cleanList e).length)
        | none => 1 + takeNormGo fuel rest (k - (cleanList [c]).length)

/-- The entity-aware back-solver `findTextWithHtmlEntities`: locate the
normalized search text in the normalized line, then walk the raw line
(counting each entity as its normalized length) to carve out the raw
substring whose normalization is the search text. -/
def findTextWithHtmlEntities (originalLine normalizedSearchText : String) :
    Option String :=
  let normalizedLine := cleanSearchText originalLine
  match firstIdxOfSub normalizedSearchText.data normalizedLine.data with
  | none => none
  | some searchIndex =>
    let afterSkip := skipNormGo originalLine.data.length originalLine.data searchIndex
    let took := takeNormGo afterSkip.length afterSkip normalizedSearchText.data.length
    let candidate := afterSkip.take took
    if cleanList candidate = normalizedSearchText.data then some (String.mk candidate)
    else none

/-- The host `substring`, with clamping into range and swapping of
out-of-order endpoints. -/
def jsSubstring (s : String) (a b : Int) : String :=
  let n : Int := s.data.length
  let ac : Int := if a < 0 then 0 else if n < a then n else a
  let bc : Int := if b < 0 then 0 else if n < b then n else b
  let lo : Nat := (if ac ≤ bc then ac else bc).toNat
  let hi : Nat := (if ac ≤ bc then bc else ac).toNat
  String.mk ((s.data.drop lo).take (hi - lo))

/-- The back-solver `extractOriginalTextFromLine`: recover the literal
on-disk substring of `originalLine` that normalizes to
`normalizedSearchText`, trying the entity-aware walk, then the first quoted
span, then a brute-force window search, before falling back to the
normalized text itself. -/
def extractOriginalTextFromLine
    (originalLine normalizedSearchText normalizedLine : String) : String :=
  match firstIdxOfSub normalizedSearchText.data normalizedLine.data with
  | none => normalizedSearchText
  | some _ =>
    let viaEntities : Option String :=
      if jsIncludes originalLine "&" then
        match findTextWithHtmlEntities originalLine normalizedSearchText with
        | some textWithEntities =>
          let trimmed := jsTrim textWithEntities
          if cleanSearchText trimmed = normalizedSearchText then some trimmed
          else some textWithEntities
        | none => none
      else none
    match viaEntities with
    | some r => r
    | none =>
      let viaQuoted : Option String :=
        match firstQuotedMatch originalLine.data with
        | some quotedContent =>
          if cleanList quotedContent = normalizedSearchText.data then
            some (String.mk quotedContent)
          else none
        | none => none
      match viaQuoted with
      | some r => r
      | none =>
        let searchLength : Int := normalizedSearchText.data.length
        let lineLength : Int := originalLine.data.length
        let l0 : Int :=
          if lineLength ≤ searchLength + 10 then lineLength else searchLength + 10
        let lengths := (List.range (l0 - (searchLength - 5) + 1).toNat).map
          (fun k => l0 - (k : Int))
        let found := lengths.findSome? (fun len =>
          ((List.range (lineLength - len + 1).toNat).map (fun st => (st : Int))).findSome?
            (fun st =>
              let candidate := jsSubstring originalLine st (st + len)
              if cleanSearchText candidate = normalizedSearchText then some candidate
              else none))
        match found with
        | some r => r
        | none => normalizedSearchText

/-- Parse, immediately after an opening straight quote, a quoted-string body
`([^"\]|\·)*` up to its closing quote; returns the body and the remainder
after the closing quote. -/
def parseQuotedString : Nat → List Char → Option (List Char × List Char)
  | 0, _ => none
  | fuel + 1, l =>
    let chunk := l.takeWhile (fun c => c ≠ '"' ∧ c ≠ '\\')
    match l.drop chunk.length with
    | '"' :: rest => some (chunk, rest)
    | '\\' :: d :: rest =>
      if d = '\n' ∨ d = '\r' ∨ d = Char.ofNat 0x2028 ∨ d = Char.ofNat 0x2029 then none
      else
        match parseQuotedString fuel rest with
        | some (content, rest2) => some (chunk ++ '\\' :: d :: content, rest2)
        | none => none
    | _ => none

/-- Worker for `replaceJsonValue`: rewrite, inside every well-formed quoted
string of the line whose content carries `cleanOld`, all occurrences of
`cleanOld` by `newText`. -/
def replaceJsonGo (cleanOld newText : List Char) : Nat → List Char → List Char
  | 0, l => l
  | _ + 1, [] => []
  | fuel + 1, c :: rest =>
    if c = '"' then
      match parseQuotedString rest.length rest with
      | some (content, after) =>
        let newContent :=
          if content = cleanOld ∨ hasSub cleanOld content then
            replaceAllL cleanOld newText content
          else content
        '"' :: (newContent ++ '"' :: replaceJsonGo cleanOld newText fuel after)
      | none => c :: replaceJsonGo cleanOld newText fuel rest
    else c :: replaceJsonGo cleanOld newText fuel rest

/-- The object-literal rewrite strategy `replaceJsonValue`: strip one layer
of quoting from the old text and rewrite it inside whichever quoted span
contains it. -/
def replaceJsonValue (line oldText newText : String) : String :=
  let t := jsTrim oldText
  let cleanOldText :=
    if t.data.take 2 = [' ', '"'] ∧ t.data.getLast? = some '"' then
      String.mk ((t.data.drop 2).dropLast)
    else if t.data.head? = some '"' ∧ t.data.getLast? = some '"' then
      String.mk ((t.data.drop 1).dropLast)
    else t
  String.mk (replaceJsonGo cleanOldText.data newText.data line.data.length line.data)

/-- Worker for `preserveEntityQuotesSimple`: rewrite the content of every
entity-quoted span `&quot; ... &quot;` that carries the old text. -/
def entityQuotesGo (oldText cleanOld newText : List Char) :
    Nat → List Char → List Char
  | 0, l => l
  | _ + 1, [] => []
  | fuel + 1, c :: rest =>
    if "&quot;".data.isPrefixOf (c :: rest) then
      let afterOpen := (c :: rest).drop 6
      let content := afterOpen.takeWhile (fun d => d ≠ '&')
      let rest2 := afterOpen.drop content.length
      if "&quot;".data.isPrefixOf rest2 then
        let matched := "&quot;".data ++ content ++ "&quot;".data
        let replaced :=
          if hasSub cleanOld content ∨ content = cleanOld ∨ matched = oldText then
            "&quot;".data ++ newText ++ "&quot;".data
          else matched
        replaced ++ entityQuotesGo oldText cleanOld newText fuel (rest2.drop 6)
      else c :: entityQuotesGo oldText cleanOld newText fuel rest
    else c :: entityQuotesGo oldText cleanOld newText fuel rest

/-- The entity-quote rewrite strategy `preserveEntityQuotesSimple`. -/
def preserveEntityQuotesSimple (line oldText newText : String) : String :=
  let cleanOldText :=
    if "&quot;".data.isPrefixOf oldText.data ∧ "&quot;".data.isSuffixOf oldText.data then
      String.mk ((oldText.data.drop 6).take (oldText.data.length - 12))
    else oldText
  String.mk (entityQuotesGo oldText.data cleanOldText.data newText.data
    line.data.length line.data)

/-- Worker for `tagSpans`: the successive text contents found between a `>`
and the next `<`. -/
def tagSpansGo : Nat → List Char → List (List Char)
  | 0, _ => []
  | fuel + 1, l =>
    match l.dropWhile (fun c => c ≠ '>') with
    | [] => []
    | _ :: rest =>
      let content := rest.takeWhile (fun c => c ≠ '<')
      match rest.drop content.length with
      | [] => []
      | _ :: after => content :: tagSpansGo fuel after

/-- All inter-tag text spans (`> ... <`) of a line, left to right. -/
def tagSpans (l : List Char) : List (List Char) :=
  tagSpansGo l.length l

/-- The text before the first tag of the line, when the line has a tag. -/
def beforeFirstTagGroup (l : List Char) : Option (List Char) :=
  if l.contains '<' then some (l.takeWhile (fun c => c ≠ '<')) else none

/-- The text after the first `>` that is followed by no further `<`. -/
def afterLastTagGroup : List Char → Option (List Char)
  | [] => none
  | c :: rest =>
    if c = '>' ∧ ¬ rest.contains '<' then some rest else afterLastTagGroup rest

/-- The format-aware substitution `replaceTextContent`: object-literal-like
lines go through the quoted-value strategy, entity-quoted lines through the
entity strategy, tagged lines through the inter-tag text strategy, and
anything else through a direct global replacement. -/
def replaceTextContent (line oldText newText : String) : String :=
  if jsIncludes line ":" && (jsIncludes line "\"" || jsIncludes line "'") then
    replaceJsonValue line oldText newText
  else if jsIncludes line "&quot;" then
    preserveEntityQuotesSimple line oldText newText
  else if jsIncludes line "<" && jsIncludes line ">" then
    let result := (tagSpans line.data).foldl (fun res textContent =>
      if hasSub oldText.data textContent then
        replaceFirstL textContent (replaceAllL oldText.data newText.data textContent) res
      else res) line.data
    let result :=
      match beforeFirstTagGroup line.data with
      | some g =>
        if hasSub oldText.data g then
          replaceFirstL g (replaceAllL oldText.data newText.data g) result
        else result
      | none => result
    let result :=
      match afterLastTagGroup line.data with
      | some g =>
        if hasSub oldText.data g then
          replaceFirstL g (replaceAllL oldText.data newText.data g) result
        else result
      | none => result
    String.mk result
  else
    jsReplaceAll line oldText newText

/-- The host `Math.min` on the exact numeric domain used here. -/
def jsMin (a b : ℚ) : ℚ :=
  if a ≤ b then a else b

/-- The host `endsWith`. -/
def jsEndsWith (s pat : String) : Bool :=
  pat.data.isSuffixOf s.data

/-- Split a character list at every occurrence of `sep` (the host `split`). -/
def splitChar (sep : Char) : List Char → List (List Char)
  | [] => [[]]
  | c :: rest =>
    if c = sep then [] :: splitChar sep rest
    else
      match splitChar sep rest with
      | h :: t => (c :: h) :: t
      | [] => [[c]]

/-- Join character lists with the separator `sep` (the host `join`). -/
def joinChar (sep : Char) : List (List Char) → List Char
  | [] => []
  | [l] => l
  | l :: ls => l ++ sep :: joinChar sep ls

/-- The lines of a file's content, split at newline characters. -/
def splitLines (s : String) : List String :=
  (splitChar '\n' s.data).map String.mk

/-- Rebuild a file's content from its lines. -/
def joinLines (ls : List String) : String :=
  String.mk (joinChar '\n' (ls.map String.data))

/-- Stable descending insertion with respect to `key`: the new element goes
before the first element whose key is not larger. -/
def insertDescBy {α β : Type} [LinearOrder β] (key : α → β) (x : α) :
    List α → List α
  | [] => [x]
  | y :: ys => if key y ≤ key x then x :: y :: ys else y :: insertDescBy key x ys

/-- Stable sort by descending `key` (the host stable `sort` with comparator
`(a, b) => key b - key a`). -/
def sortDescBy {α β : Type} [LinearOrder β] (key : α → β) : List α → List α
  | [] => []
  | x :: xs => insertDescBy key x (sortDescBy key xs)

/-- The file system: an association list from (relative) paths to file
contents, in scan-traversal order. -/
abbrev FS := List (String × String)

/-- Content of the file at `p`, if present. -/
def lookupFS : FS → String → Option String
  | [], _ => none
  | e :: es, p => if e.1 = p then some e.2 else lookupFS es p

/-- Overwrite the content of the file at `p`. -/
def writeFS (fs : FS) (p content : String) : FS :=
  fs.map (fun e => if e.1 = p then (e.1, content) else e)

/-- The helper `getFileContent`: read a file, yielding `""` on failure. -/
def getFileContent (fs : FS) (p : String) : String :=
  (lookupFS fs p).getD ""

/-- The `elementContext` member of an edit request. -/
structure ElementContext where
  elementTag : String
  elementClasses : Option (List String) := none
  elementId : Option String := none
  heroPageElementId : Option String := none
  cssSelector : String
  elementPath : String
deriving DecidableEq, Repr

/-- The `surroundingContext` member of an edit request. -/
structure SurroundingContext where
  parentText : Option String := none
  siblingsBefore : Option (List String) := none
  siblingsAfter : Option (List String) := none
  nearbyUniqueText : Option String := none
deriving DecidableEq, Repr

/-- The `pageContext` member of an edit request. -/
structure PageContext where
  pageUrl : String
  pageTitle : Option String := none
  fullUrl : Option String := none
deriving DecidableEq, Repr

/-- An edit request (`EditContext` in the source). -/
structure EditContext where
  originalText : String
  newText : String
  projectId : Option String := none
  elementContext : ElementContext
  surroundingContext : Option SurroundingContext := none
  pageContext : PageContext
deriving DecidableEq, Repr

/-- A raw candidate match (`FileMatch` in the source). -/
structure FileMatch where
  filePath : String
  lineNumber : Nat
  originalLine : String
  updatedLine : String
  matchedText : String
  matchedVariation : Option String := none
  contextBefore : List String
  contextAfter : List String
  isAttributeMatch : Bool
  isTextContentMatch : Bool
  isExactMatch : Bool
deriving DecidableEq, Repr

/-- A validated and scored candidate (`ScoredMatch` in the source). -/
structure ScoredMatch extends FileMatch where
  score : ℚ
  confidence : ℚ
  reasons : List String
deriving DecidableEq, Repr

/-- Result record of the source patcher `updateSourceFile`. -/
structure UpdateResult where
  success : Bool
  errorMessage : Option String := none
deriving DecidableEq, Repr

/-- The result of a whole edit (`ProcessResult` in the source). -/
structure ProcessResult where
  success : Bool
  confidence : ℚ
  matchedFilePath : Option String := none
  lineNumber : Option Nat := none
  matchContext : Option String := none
  alternativeMatches : List ScoredMatch := []
  hasConflicts : Bool
  errorMessage : Option String := none
deriving DecidableEq, Repr

/-- Construct the candidate record emitted by the corpus scanner for line
`i` (zero-based) of a file, matched through `variation`. -/
def mkFileMatch (filePath : String) (lines : List String) (i : Nat)
    (line variation cleanedText : String) (searchVariations : List String) :
    FileMatch :=
  let normalizedLine := cleanSearchText line
  let originalTextInFile := extractOriginalTextFromLine line variation normalizedLine
  { filePath := filePath
    lineNumber := i + 1
    originalLine := line
    updatedLine := jsReplaceFirst line originalTextInFile (searchVariations.headD "")
    matchedText := originalTextInFile
    matchedVariation := if variation ≠ cleanedText then some variation else none
    contextBefore := (lines.drop (i - 3)).take (i - (i - 3))
    contextAfter := (lines.drop (i + 1)).take 3
    isAttributeMatch := isAttributeMatch normalizedLine variation
    isTextContentMatch := isTextContentMatch normalizedLine variation
    isExactMatch := hasExactTextMatch line variation }

/-- The corpus scanner `findTextInSourceFiles`: for every file, line and
variation, emit a candidate exactly when the bounded-syntactic exact-match
predicate holds for that line and variation. -/
def findMatches (fs : FS) (originalText : String) : List FileMatch :=
  let cleanedText := cleanSearchText originalText
  let searchVariations := extractDynamicPart cleanedText
  fs.flatMap (fun file =>
    let lines := splitLines file.2
    (List.range lines.length).flatMap (fun i =>
      let line := lines.getD i ""
      searchVariations.filterMap (fun variation =>
        if hasExactTextMatch line variation then
          some (mkFileMatch file.1 lines i line variation cleanedText searchVariations)
        else none)))

/-- Page-relevance score of a candidate with respect to the request's page
URL (the score computed inline by `filterByPageContext`). -/
def relevanceScore (pageContext : PageContext) (m : FileMatch) : Nat :=
  let urlParts := ((splitChar '/' pageContext.pageUrl.data).map String.mk).filter
    (fun p => p ≠ "")
  let lastPart := urlParts.getLast?.getD "index"
  let filePath := jsToLower m.filePath
  let r : Nat := 0
  let r := if jsIncludes filePath (lastPart ++ "/page.") then r + 100 else r
  let r := if urlParts.any (fun part => jsIncludes filePath (jsToLower part)) then r + 50
    else r
  let r := if jsIncludes filePath "/page." || jsIncludes filePath "page/" then r + 30
    else r
  let r := if jsIncludes filePath "/components/" then r + 20 else r
  let r := if jsIncludes filePath "/layout." then r + 10 else r
  let r := if jsIncludes filePath "nav" || jsIncludes filePath "header" ||
      jsIncludes filePath "footer" then r + 5 else r
  r

/-- The page-context filter: with a non-empty page URL, stably rank the
candidates by descending page relevance and keep the first ten; with an
empty page URL, pass all candidates through unchanged. -/
def filterByPageContext (ms : List FileMatch) (pageContext : PageContext) :
    List FileMatch :=
  if pageContext.pageUrl = "" then ms
  else
    ((sortDescBy (fun pr => pr.2)
      (ms.map (fun m => (m, relevanceScore pageContext m)))).map (·.1)).take 10

/-- Truthiness of an optional string field of the request. -/
def optTruthy : Option String → Bool
  | some s => s ≠ ""
  | none => false

/-- Does the request's parent text normalize to exactly the edited text
(minimal context)? -/
def hasMinimalContextB (context : EditContext) : Bool :=
  match context.surroundingContext with
  | some sc =>
    match sc.parentText with
    | some pt =>
      pt ≠ "" && jsTrim (cleanSearchText pt) = jsTrim (cleanSearchText context.originalText)
    | none => false
  | none => false

/-- The context-dependent validation acceptance threshold (`minRequiredScore`
in `validateExactContext`). -/
def minRequiredScore (context : EditContext) (isUniqueText : Bool) : ℚ :=
  let hasElementId := optTruthy context.elementContext.elementId
  let hasStrongElementContext := hasElementId ||
    decide (3 ≤ (context.elementContext.elementClasses.getD []).length)
  if hasElementId || isUniqueText then 1
  else if hasStrongElementContext then 1
  else if hasMinimalContextB context then 3
  else if (jsTrim context.originalText).data.length < 10 then 2
  else 1

/-- Validation outcome: overall verdict plus the accumulated evidence score
and the threshold it was compared with. -/
structure ValidationResult where
  isValid : Bool
  score : ℚ
  minRequired : ℚ
deriving DecidableEq, Repr

/-- Extract `#id` and `.class` tokens from a CSS selector. -/
def selTokensGo : Nat → List Char → List (List Char)
  | 0, _ => []
  | _ + 1, [] => []
  | fuel + 1, c :: rest =>
    if c = '#' ∨ c = '.' then
      let run := rest.takeWhile (fun d => isWordChar d || d = '-')
      if run.isEmpty then selTokensGo fuel rest
      else (c :: run) :: selTokensGo fuel (rest.drop run.length)
    else selTokensGo fuel rest

/-- String-level wrapper for `selTokensGo`. -/
def selTokens (l : List Char) : List (List Char) :=
  selTokensGo l.length l

/-- Strip one leading and one trailing slash from a URL path. -/
def stripSlashEnds (s : String) : String :=
  let d1 := match s.data with
    | '/' :: r => r
    | l => l
  let d2 := if d1.getLast? = some '/' then d1.dropLast else d1
  String.mk d2

/-- The evidence stages of `validateExactContext` after the parent-text
stage: sibling corroboration, URL-to-path correlation, CSS-selector token
presence, minimal-context adjustment, uniqueness and element-id bonuses, and
the threshold comparison. -/
def validateTail (mtch : FileMatch) (context : EditContext) (isUniqueText : Bool)
    (fileContent : String) (startScore : ℚ) : ValidationResult :=
  let sibs := (context.surroundingContext.bind (fun sc => sc.siblingsAfter)).getD []
  let counts := sibs.foldl (fun (acc : Nat × Nat) sibling =>
    if jsIncludes sibling ":" then
      let textPart := jsTrim (String.mk
        (((splitChar ':' sibling.data).getD 1 []).takeWhile (fun c => c ≠ '[')))
      if 15 < textPart.data.length then
        ((acc.1 + (if jsIncludes (cleanSearchText fileContent) (cleanSearchText textPart)
          then 1 else 0)), acc.2 + 1)
      else acc
    else acc) (0, 0)
  let siblingMatches := counts.1
  let totalSiblings := counts.2
  let vs := startScore
  let vs :=
    if 0 < totalSiblings then
      if (1 : ℚ)/2 ≤ (siblingMatches : ℚ) / (totalSiblings : ℚ) then
        vs + 2 * (siblingMatches : ℚ)
      else vs - 1
    else vs
  let pageUrl := context.pageContext.pageUrl
  let fileName := jsToLower mtch.filePath
  let vs :=
    if pageUrl ≠ "" then
      let vs :=
        if pageUrl = "/" ∨ pageUrl = "" then
          if jsIncludes fileName "testimonials" ∨ jsIncludes fileName "obstacles" ∨
              jsIncludes fileName "bausteine" ∨ jsIncludes fileName "hero" ∨
              ¬ jsIncludes fileName "(light-bg)" then vs + 1
          else vs
        else vs
      if jsIncludes pageUrl "/" ∧ pageUrl ≠ "/" then
        if jsIncludes fileName (stripSlashEnds pageUrl) then vs + 2 else vs
      else vs
    else vs
  let vs :=
    if context.elementContext.cssSelector ≠ "" then
      let selectorMatches := ((selTokens context.elementContext.cssSelector.data).filter
        (fun part =>
          let cleanPart := String.mk (part.drop 1)
          decide (3 < cleanPart.data.length) && jsIncludes fileContent cleanPart)).length
      if 0 < selectorMatches then vs + (selectorMatches : ℚ) * (1/2) else vs
    else vs
  let vs :=
    if hasMinimalContextB context then
      if 20 < context.elementContext.cssSelector.data.length then vs + 1 else vs - 1
    else vs
  let vs := if isUniqueText then vs + 3 else vs
  let vs := if optTruthy context.elementContext.elementId then vs + 2 else vs
  let minRequired := minRequiredScore context isUniqueText
  { isValid := decide (minRequired ≤ vs), score := vs, minRequired := minRequired }

/-- The context validator `validateExactContext`: the parent-text stage can
reject outright or contribute 1 or 2 points; the remaining additive stages
and the threshold comparison are in `validateTail`. -/
def validateExactContext (mtch : FileMatch) (context : EditContext)
    (isUniqueText : Bool) (fs : FS) : ValidationResult :=
  let fileContent := getFileContent fs mtch.filePath
  let parentOpt := context.surroundingContext.bind (fun sc => sc.parentText)
  if optTruthy parentOpt then
    let parentTextNormalized := cleanSearchText (parentOpt.getD "")
    let originalTextNormalized := cleanSearchText context.originalText
    if ¬ jsIncludes parentTextNormalized originalTextNormalized then
      { isValid := false, score := 0, minRequired := minRequiredScore context isUniqueText }
    else if ¬ jsIncludes (cleanSearchText fileContent) originalTextNormalized then
      { isValid := false, score := 0, minRequired := minRequiredScore context isUniqueText }
    else if jsTrim parentTextNormalized = jsTrim originalTextNormalized then
      validateTail mtch context isUniqueText fileContent 1
    else
      validateTail mtch context isUniqueText fileContent 2
  else
    validateTail mtch context isUniqueText fileContent 0

/-- The base-score accumulation and confidence computation applied to one
validated candidate by `scoreMatchesWithContext`. -/
def scoreMatch (mtch : FileMatch) (context : EditContext) : ScoredMatch :=
  let score : ℚ := 3
  let reasons : List String := ["Text match found", "Context validation passed"]
  let sr : ℚ × List String :=
    if optTruthy context.elementContext.elementId ∨ context.elementContext.elementTag ≠ "" then
      if jsEndsWith mtch.filePath ".tsx" || jsEndsWith mtch.filePath ".jsx" then
        (score + 2, reasons ++ ["Component file with DOM context (high priority)"])
      else if jsIncludes mtch.filePath ".map.json" ||
          jsIncludes mtch.filePath "hero-page-element-id" then
        (score - 1, reasons ++ ["Mapping file (lower priority when DOM context available)"])
      else (score, reasons)
    else (score, reasons)
  let sr :=
    if jsIncludes mtch.filePath "/components/" || jsIncludes mtch.filePath "\\components\\" then
      (sr.1 + 1, sr.2 ++ ["Component file"])
    else sr
  let sr :=
    if mtch.isExactMatch then (sr.1 + 3, sr.2 ++ ["Exact text match (high priority)"])
    else (sr.1 - 1, sr.2 ++ ["Non-exact match (penalty applied)"])
  let sr :=
    if mtch.isTextContentMatch && !mtch.isAttributeMatch then
      (sr.1 + 1, sr.2 ++ ["Text content match"])
    else sr
  { toFileMatch := mtch
    score := sr.1
    confidence := jsMin (sr.1 / 4) 1
    reasons := sr.2 }

/-- The validated candidates, in input order: candidates failing validation
are dropped entirely, survivors are scored. -/
def validScored (ms : List FileMatch) (context : EditContext) (fs : FS) :
    List ScoredMatch :=
  ms.filterMap (fun mtch =>
    if (validateExactContext mtch context (decide (ms.length = 1)) fs).isValid then
      some (scoreMatch mtch context)
    else none)

/-- The scorer `scoreMatchesWithContext`: validate, score, and stably sort
by descending confidence. -/
def scoreMatchesWithContext (ms : List FileMatch) (context : EditContext)
    (fs : FS) : List ScoredMatch :=
  sortDescBy (fun m => m.confidence) (validScored ms context fs)

/-- Does the line carry a content-bearing attribute key? -/
def isContentAttrLine (line : String) : Bool :=
  contentAttributes.any (fun attr => jsIncludes (jsToLower line) (jsToLower attr))

/-- The candidate ranker `findBestMatch`: first non-empty bucket among pure
text-content matches, content-attribute matches and mixed matches; otherwise
the head of the scored list (preferring the high-confidence subset when it
has more than one element). -/
def findBestMatch (scoredMatches : List ScoredMatch) : Option ScoredMatch :=
  match scoredMatches with
  | [] => none
  | best :: _ =>
    match scoredMatches.filter (fun m => m.isTextContentMatch && !m.isAttributeMatch) with
    | t :: _ => some t
    | [] =>
      match scoredMatches.filter (fun m =>
        m.isTextContentMatch && m.isAttributeMatch && isContentAttrLine m.originalLine) with
      | t :: _ => some t
      | [] =>
        match scoredMatches.filter (fun m => m.isTextContentMatch && m.isAttributeMatch) with
        | t :: _ => some t
        | [] =>
          let highConfidenceMatches :=
            scoredMatches.filter (fun m => decide ((1 : ℚ)/2 < m.confidence))
          if 1 < highConfidenceMatches.length then highConfidenceMatches.head?
          else some best

/-- The source patcher `updateSourceFile`: re-read the target file, fail on a
stale line number, otherwise rewrite exactly the matched line with the
format-aware strategy (falling back to a first-occurrence literal
replacement when that strategy leaves the line unchanged) and write the file
back. -/
def updateSourceFile (fs : FS) (mtch : FileMatch) (context : EditContext) :
    UpdateResult × FS :=
  match lookupFS fs mtch.filePath with
  | none => ({ success := false, errorMessage := some "Unknown file update error" }, fs)
  | some content =>
    let lines := splitLines content
    if mtch.lineNumber = 0 then
      ({ success := false, errorMessage := some "Unknown file update error" }, fs)
    else if mtch.lineNumber ≤ lines.length then
      let originalLine := lines.getD (mtch.lineNumber - 1) ""
      let updated0 := replaceTextContent originalLine mtch.matchedText context.newText
      let updatedLine :=
        if updated0 = originalLine then
          jsReplaceFirst originalLine mtch.matchedText context.newText
        else updated0
      let newLines := lines.set (mtch.lineNumber - 1) updatedLine
      ({ success := true }, writeFS fs mtch.filePath (joinLines newLines))
    else
      ({ success := false,
         errorMessage := some ("Line number " ++ toString mtch.lineNumber ++
           " exceeds file length") }, fs)

/-- The whole engine `processTextEdit`: scan, page-filter, validate/score,
rank, and patch, producing the result record and the possibly-updated file
system. -/
def processTextEdit (fs : FS) (editContext : EditContext) : ProcessResult × FS :=
  let allMatches := findMatches fs editContext.originalText
  if allMatches.isEmpty then
    ({ success := false, confidence := 0, hasConflicts := false,
       errorMessage := some "No matches found" }, fs)
  else
    let pageMatches := filterByPageContext allMatches editContext.pageContext
    let scoredMatches := scoreMatchesWithContext pageMatches editContext fs
    match findBestMatch scoredMatches with
    | none =>
      ({ success := false, confidence := 0,
         hasConflicts := decide (1 < scoredMatches.length),
         alternativeMatches := scoredMatches,
         errorMessage := some "No matches found" }, fs)
    | some bestMatch =>
      if bestMatch.confidence < 1/2 then
        ({ success := false, confidence := bestMatch.confidence,
           hasConflicts := decide (1 < scoredMatches.length),
           alternativeMatches := scoredMatches,
           errorMessage := some "Low confidence match" }, fs)
      else
        let updated := updateSourceFile fs bestMatch.toFileMatch editContext
        if updated.1.success then
          ({ success := true, confidence := bestMatch.confidence,
             matchedFilePath := some bestMatch.filePath,
             lineNumber := some bestMatch.lineNumber,
             matchContext := some bestMatch.originalLine,
             hasConflicts := false }, updated.2)
        else
          ({ success := false, confidence := bestMatch.confidence,
             hasConflicts := false,
             errorMessage := some ((updated.1.errorMessage).getD "Failed to update file") },
           updated.2)

/-- Modelled from the spec (claim C5's wording of the acceptance threshold):
1 point if the request has an element id or the candidate is globally unique
or the request has at least 3 element classes; otherwise 3 points if the
context is minimal; otherwise 2 points if the trimmed target text is shorter
than 10 characters, else 1 point. -/
def thresholdClaim (context : EditContext) (isGloballyUnique : Bool) : ℚ :=
  if optTruthy context.elementContext.elementId ∨ isGloballyUnique = true ∨
      3 ≤ (context.elementContext.elementClasses.getD []).length then 1
  else if hasMinimalContextB context then 3
  else if (jsTrim context.originalText).data.length < 10 then 2
  else 1

/-- Scan-and-patch input used to witness the frame property of a successful
patch. -/
def frameFS : FS := [("f.ts", "a\nb\nc"), ("g.ts", "zz")]

/-- A candidate record targeting line 2 of `f.ts` in `frameFS`. -/
def frameMatch : FileMatch :=
  { filePath := "f.ts", lineNumber := 2, originalLine := "b", updatedLine := "z",
    matchedText := "b", contextBefore := [], contextAfter := [],
    isAttributeMatch := false, isTextContentMatch := true, isExactMatch := true }

/-- A minimal edit request rewriting `b` to `z`. -/
def frameCtx : EditContext :=
  { originalText := "b", newText := "z",
    elementContext := { elementTag := "", cssSelector := "", elementPath := "" },
    pageContext := { pageUrl := "/" } }

/-- File system used to witness the stale-target behaviour. -/
def staleFS : FS := [("f.ts", "a\nb")]

/-- A candidate record whose line number (3) exceeds the two lines the file
now has. -/
def staleMatch : FileMatch :=
  { filePath := "f.ts", lineNumber := 3, originalLine := "c", updatedLine := "z",
    matchedText := "c", contextBefore := [], contextAfter := [],
    isAttributeMatch := false, isTextContentMatch := true, isExactMatch := true }

/-- Corpus used to witness the scanner's iff-characterisation. -/
def scanFS : FS := [("f.ts", "hello\n\"hi there you\" end")]

/-- A two-file corpus in which the same attribute-only line occurs twice;
the page-relevant file comes second in traversal order. -/
def twinFS : FS :=
  [("alpha.ts", "x=\"helloworldtext\" y"), ("beta/page.ts", "x=\"helloworldtext\" y")]

/-- An edit request for the twin corpus: no element id, empty tag, home
page URL. -/
def twinCtx : EditContext :=
  { originalText := "helloworldtext", newText := "x",
    elementContext := { elementTag := "", cssSelector := "", elementPath := "" },
    pageContext := { pageUrl := "/" } }

/-- The candidate discovered first (in `alpha.ts`). -/
def twinMatchA : FileMatch :=
  { filePath := "alpha.ts", lineNumber := 1,
    originalLine := "x=\"helloworldtext\" y",
    updatedLine := "x=\"helloworldtext\" y",
    matchedText := "helloworldtext", matchedVariation := none,
    contextBefore := [], contextAfter := [],
    isAttributeMatch := true, isTextContentMatch := false, isExactMatch := true }

/-- The candidate discovered second (in `beta/page.ts`). -/
def twinMatchB : FileMatch :=
  { filePath := "beta/page.ts", lineNumber := 1,
    originalLine := "x=\"helloworldtext\" y",
    updatedLine := "x=\"helloworldtext\" y",
    matchedText := "helloworldtext", matchedVariation := none,
    contextBefore := [], contextAfter := [],
    isAttributeMatch := true, isTextContentMatch := false, isExactMatch := true }

/-- The scored form of `twinMatchA`. -/
def twinScoredA : ScoredMatch :=
  { toFileMatch := twinMatchA, score := 6, confidence := 1,
    reasons := ["Text match found", "Context validation passed",
      "Exact text match (high priority)"] }

/-- The scored form of `twinMatchB`. -/
def twinScoredB : ScoredMatch :=
  { toFileMatch := twinMatchB, score := 6, confidence := 1,
    reasons := ["Text match found", "Context validation passed",
      "Exact text match (high priority)"] }

/-- The twin corpus after the successful patch (only `beta/page.ts` has
changed). -/
def twinFSAfter : FS :=
  [("alpha.ts", "x=\"helloworldtext\" y"), ("beta/page.ts", "x=\"x\" y")]

/-- An eleven-line corpus in which every line matches. -/
def elevenFS : FS :=
  [("a.md", "\"helloworldtext\"\n\"helloworldtext\"\n\"helloworldtext\"\n\"helloworldtext\"\n\"helloworldtext\"\n\"helloworldtext\"\n\"helloworldtext\"\n\"helloworldtext\"\n\"helloworldtext\"\n\"helloworldtext\"\n\"helloworldtext\"")]

/-- The special characters rewritten away by the normalizer's
character-class replacements. -/
def specialChars : List Char :=
  [Char.ofNat 0x00A0, Char.ofNat 0x2026, Char.ofNat 0x201C, Char.ofNat 0x201D,
   Char.ofNat 0x2018, Char.ofNat 0x2019, Char.ofNat 0x201E, Char.ofNat 0x201A]

/-- Does the string start with a strippable quote character? -/
def headIsStripQuote (l : List Char) : Bool :=
  match l.head? with
  | some c => isStripQuote c
  | none => false

/-- Does the string end with a character a second normalization pass would
strip (a quote character or a period)? -/
def lastStripsMore (l : List Char) : Bool :=
  match l.getLast? with
  | some c => isStripQuote c || c == '.'
  | none => false

/-- Adjacent characters are not both whitespace. -/
def noWsPair (a b : Char) : Prop :=
  ¬(isJsWs a = true ∧ isJsWs b = true)

/-- The list has no two adjacent whitespace characters (stated through a
plain definition so the chain predicate is never unfolded against a large
argument). -/
def NoWsRun (l : List Char) : Prop :=
  List.Chain' noWsPair l

def cleanTail (m : List Char) : List Char :=
  trimL
    (if (dropLastWhile isStripQuote
        (List.dropWhile isStripQuote (collapseWs m))).getLast? = some '.' then
      (dropLastWhile isStripQuote
        (List.dropWhile isStripQuote (collapseWs m))).dropLast
    else dropLastWhile isStripQuote
      (List.dropWhile isStripQuote (collapseWs m)))


section SortLemmas

variable {α β : Type} [LinearOrder β] (key : α → β)

theorem insertDescBy_perm (x : α) (l : List α) :
    List.Perm (insertDescBy key x l) (x :: l) := by
  induction l with
  | nil => simp [insertDescBy]
  | cons y ys ih =>
    simp only [insertDescBy]
    split
    · exact List.Perm.refl _
    · exact (List.Perm.cons y ih).trans (List.Perm.swap x y ys)

theorem sortDescBy_perm (l : List α) : List.Perm (sortDescBy key l) l := by
  induction l with
  | nil => exact List.Perm.refl _
  | cons x xs ih =>
    exact (insertDescBy_perm key x (sortDescBy key xs)).trans (List.Perm.cons x ih)

theorem mem_sortDescBy {a : α} {l : List α} :
    a ∈ sortDescBy key l ↔ a ∈ l :=
  (sortDescBy_perm key l).mem_iff

theorem pairwise_insertDescBy (x : α) (l : List α)
    (h : List.Pairwise (fun a b => key b ≤ key a) l) :
    List.Pairwise (fun a b => key b ≤ key a) (insertDescBy key x l) := by
  induction l with
  | nil => simp [insertDescBy]
  | cons y ys ih =>
    rw [List.pairwise_cons] at h
    simp only [insertDescBy]
    split
    · rename_i hyx
      rw [List.pairwise_cons]
      refine ⟨?_, List.pairwise_cons.mpr h⟩
      intro z hz
      rcases List.mem_cons.mp hz with rfl | hz'
      · exact hyx
      · exact le_trans (h.1 z hz') hyx
    · rename_i hyx
      rw [List.pairwise_cons]
      refine ⟨?_, ih h.2⟩
      intro z hz
      rcases List.mem_cons.mp ((insertDescBy_perm key x ys).mem_iff.mp hz) with rfl | hz'
      · exact le_of_lt (lt_of_not_le hyx)
      · exact h.1 z hz'

theorem sortDescBy_sorted (l : List α) :
    List.Pairwise (fun a b => key b ≤ key a) (sortDescBy key l) := by
  induction l with
  | nil => simp [sortDescBy]
  | cons x xs ih => exact pairwise_insertDescBy key x (sortDescBy key xs) ih

theorem sortDescBy_head_max {l : List α} {b : α} {t : List α}
    (h : sortDescBy key l = b :: t) : ∀ a ∈ l, key a ≤ key b := by
  intro a ha
  have hmem : a ∈ b :: t := h ▸ (mem_sortDescBy key).mpr ha
  rcases List.mem_cons.mp hmem with rfl | hmem'
  · exact le_refl _
  · have hs := sortDescBy_sorted key l
    rw [h, List.pairwise_cons] at hs
    exact hs.1 a hmem'

theorem filter_insertDescBy_of_eq (x : α) (l : List α) (c : β) (hx : key x = c) :
    (insertDescBy key x l).filter (fun a => decide (key a = c)) =
      x :: l.filter (fun a => decide (key a = c)) := by
  induction l with
  | nil => simp [insertDescBy, hx]
  | cons y ys ih =>
    simp only [insertDescBy]
    split
    · simp [List.filter_cons, hx]
    · rename_i hyx
      have hy : ¬ (key y = c) := by
        intro hyc
        exact hyx (hx ▸ hyc ▸ le_refl (key y))
      simp [List.filter_cons, hy, ih]

theorem filter_insertDescBy_of_ne (x : α) (l : List α) (c : β) (hx : ¬ key x = c) :
    (insertDescBy key x l).filter (fun a => decide (key a = c)) =
      l.filter (fun a => decide (key a = c)) := by
  induction l with
  | nil => simp [insertDescBy, hx]
  | cons y ys ih =>
    simp only [insertDescBy]
    split
    · simp [List.filter_cons, hx]
    · simp [List.filter_cons, ih]

theorem sortDescBy_filter (l : List α) (c : β) :
    (sortDescBy key l).filter (fun a => decide (key a = c)) =
      l.filter (fun a => decide (key a = c)) := by
  induction l with
  | nil => rfl
  | cons x xs ih =>
    simp only [sortDescBy]
    by_cases hx : key x = c
    · rw [filter_insertDescBy_of_eq key x (sortDescBy key xs) c hx, ih,
        List.filter_cons, if_pos (by simpa using hx)]
    · rw [filter_insertDescBy_of_ne key x (sortDescBy key xs) c hx, ih,
        List.filter_cons, if_neg (by simpa using hx)]

end SortLemmas

theorem splitChar_ne_nil (sep : Char) (l : List Char) : splitChar sep l ≠ [] := by
  induction l with
  | nil => simp [splitChar]
  | cons c rest ih =>
    simp only [splitChar]
    split
    · simp
    · rcases hsp : splitChar sep rest with _ | ⟨h, t⟩
      · exact absurd hsp ih
      · simp [hsp]

theorem joinChar_splitChar (sep : Char) (l : List Char) :
    joinChar sep (splitChar sep l) = l := by
  induction l with
  | nil => rfl
  | cons c rest ih =>
    simp only [splitChar]
    split
    · rename_i hc
      rcases hsp : splitChar sep rest with _ | ⟨h, t⟩
      · exact absurd hsp (splitChar_ne_nil sep rest)
      · rw [hsp] at ih
        subst hc
        simp [joinChar, ih]
    · rcases hsp : splitChar sep rest with _ | ⟨h, t⟩
      · exact absurd hsp (splitChar_ne_nil sep rest)
      · rw [hsp] at ih
        cases t with
        | nil => simpa [joinChar] using congrArg (c :: ·) ih
        | cons t1 ts =>
          simp only [joinChar] at ih ⊢
          rw [List.cons_append, ih]

theorem joinLines_splitLines (s : String) : joinLines (splitLines s) = s := by
  have h1 : (splitLines s).map String.data = splitChar '\n' s.data := by
    rw [splitLines, List.map_map]
    have h2 : (String.data ∘ String.mk) = id := by
      funext l
      rfl
    rw [h2, List.map_id]
  rw [joinLines, h1, joinChar_splitChar]

theorem lookupFS_writeFS_ne (fs : FS) (p q c : String) (h : q ≠ p) :
    lookupFS (writeFS fs p c) q = lookupFS fs q := by
  induction fs with
  | nil => rfl
  | cons e es ih =>
    have hfst : (if e.1 = p then (e.1, c) else e).1 = e.1 := by
      split <;> rfl
    by_cases hb : e.1 = q
    · have hep : ¬ e.1 = p := fun hep => h (hb ▸ hep ▸ rfl)
      simp only [writeFS, List.map_cons, if_neg hep, lookupFS, if_pos hb]
    · simp only [writeFS, List.map_cons, lookupFS, hfst, hb, if_false]
      exact ih

theorem lookupFS_writeFS_self (fs : FS) (p c : String) :
    lookupFS (writeFS fs p c) p = (lookupFS fs p).map (fun _ => c) := by
  induction fs with
  | nil => rfl
  | cons e es ih =>
    have hfst : (if e.1 = p then (e.1, c) else e).1 = e.1 := by
      split <;> rfl
    by_cases he : e.1 = p
    · simp [writeFS, lookupFS, hfst, he]
    · simp only [writeFS, List.map_cons, lookupFS, hfst, he, if_false]
      exact ih

/-- C2: a successful patch mutates at most one line of at most one file —
the content of every file other than the target is unchanged, the new target
content is the old one with exactly the matched line replaced, and every
line other than the matched one is byte-identical before and after. -/
theorem updateSourceFile_frame (fs : FS) (m : FileMatch) (ctx : EditContext)
    (h : (updateSourceFile fs m ctx).1.success = true) :
    (∀ q, q ≠ m.filePath → lookupFS (updateSourceFile fs m ctx).2 q = lookupFS fs q) ∧
    ∃ content newLine,
      lookupFS fs m.filePath = some content ∧
      content = joinLines (splitLines content) ∧
      lookupFS (updateSourceFile fs m ctx).2 m.filePath =
        some (joinLines ((splitLines content).set (m.lineNumber - 1) newLine)) ∧
      ∀ j, j ≠ m.lineNumber - 1 →
        ((splitLines content).set (m.lineNumber - 1) newLine)[j]? =
          (splitLines content)[j]? := by
  rcases hc : lookupFS fs m.filePath with _ | content
  · simp [updateSourceFile, hc] at h
  · by_cases h0 : m.lineNumber = 0
    · simp [updateSourceFile, hc, h0] at h
    · by_cases hlen : m.lineNumber ≤ (splitLines content).length
      · simp only [updateSourceFile, hc, if_neg h0, if_pos hlen]
        constructor
        · intro q hq
          exact lookupFS_writeFS_ne fs m.filePath q _ hq
        · refine ⟨content,
            (if replaceTextContent ((splitLines content).getD (m.lineNumber - 1) "")
                  m.matchedText ctx.newText =
                (splitLines content).getD (m.lineNumber - 1) "" then
              jsReplaceFirst ((splitLines content).getD (m.lineNumber - 1) "")
                m.matchedText ctx.newText
            else
              replaceTextContent ((splitLines content).getD (m.lineNumber - 1) "")
                m.matchedText ctx.newText),
            rfl, (joinLines_splitLines content).symm, ?_, ?_⟩
          · rw [lookupFS_writeFS_self, hc]
            rfl
          · intro j hj
            exact List.getElem?_set_ne (fun hji => hj hji.symm)
      · simp [updateSourceFile, hc, h0, hlen] at h

/-- Witness for `updateSourceFile_frame` at a concrete successful patch. -/
theorem updateSourceFile_frame_witness :
    (∀ q, q ≠ frameMatch.filePath →
      lookupFS (updateSourceFile frameFS frameMatch frameCtx).2 q = lookupFS frameFS q) ∧
    ∃ content newLine,
      lookupFS frameFS frameMatch.filePath = some content ∧
      content = joinLines (splitLines content) ∧
      lookupFS (updateSourceFile frameFS frameMatch frameCtx).2 frameMatch.filePath =
        some (joinLines ((splitLines content).set (frameMatch.lineNumber - 1) newLine)) ∧
      ∀ j, j ≠ frameMatch.lineNumber - 1 →
        ((splitLines content).set (frameMatch.lineNumber - 1) newLine)[j]? =
          (splitLines content)[j]? :=
  updateSourceFile_frame frameFS frameMatch frameCtx (by decide)

/-- C8: when the matched line number exceeds the target file's current
number of lines, the patch reports failure and performs no write — the file
system is exactly as before the call. -/
theorem updateSourceFile_stale (fs : FS) (m : FileMatch) (ctx : EditContext)
    (content : String) (h1 : lookupFS fs m.filePath = some content)
    (h2 : (splitLines content).length < m.lineNumber) :
    (updateSourceFile fs m ctx).1.success = false ∧
      (updateSourceFile fs m ctx).2 = fs := by
  have h0 : m.lineNumber ≠ 0 := by omega
  have hlen : ¬ m.lineNumber ≤ (splitLines content).length := by omega
  simp [updateSourceFile, h1, h0, hlen]

/-- Witness for `updateSourceFile_stale` at a concrete shrunken file. -/
theorem updateSourceFile_stale_witness :
    (updateSourceFile staleFS staleMatch frameCtx).1.success = false ∧
      (updateSourceFile staleFS staleMatch frameCtx).2 = staleFS :=
  updateSourceFile_stale staleFS staleMatch frameCtx "a\nb" (by decide) (by decide)

/-- C4: the scanner emits the candidate built from a given file, line and
variation exactly when the bounded-syntactic exact-match predicate holds for
that line and variation; a line failing the predicate never becomes a
candidate (loose normalized-substring containment is not sufficient). -/
theorem findMatches_iff_exact (fs : FS) (text : String) (kf ki : Nat)
    (p c line v : String) (hf : fs[kf]? = some (p, c))
    (hl : (splitLines c)[ki]? = some line)
    (hv : v ∈ extractDynamicPart (cleanSearchText text)) :
    (mkFileMatch p (splitLines c) ki line v (cleanSearchText text)
        (extractDynamicPart (cleanSearchText text)) ∈ findMatches fs text ↔
      hasExactTextMatch line v = true) ∧
    (hasExactTextMatch line v = false →
      mkFileMatch p (splitLines c) ki line v (cleanSearchText text)
        (extractDynamicPart (cleanSearchText text)) ∉ findMatches fs text) := by
  have hki : ki < (splitLines c).length := by
    by_contra hc2
    rw [List.getElem?_eq_none (by omega)] at hl
    exact Option.noConfusion hl
  have hgetD : (splitLines c).getD ki "" = line := by
    simp [List.getD, hl]
  have hmain : mkFileMatch p (splitLines c) ki line v (cleanSearchText text)
      (extractDynamicPart (cleanSearchText text)) ∈ findMatches fs text ↔
      hasExactTextMatch line v = true := by
    constructor
    · intro hmem
      simp only [findMatches] at hmem
      rcases List.mem_flatMap.mp hmem with ⟨file, _, hmem2⟩
      rcases List.mem_flatMap.mp hmem2 with ⟨i, _, hmem3⟩
      rcases List.mem_filterMap.mp hmem3 with ⟨v', _, heq⟩
      by_cases hex : hasExactTextMatch ((splitLines file.2).getD i "") v' = true
      · rw [if_pos hex] at heq
        have hfield := congrArg FileMatch.isExactMatch (Option.some.inj heq)
        simp only [mkFileMatch] at hfield
        exact hfield ▸ hex
      · rw [if_neg hex] at heq
        exact Option.noConfusion heq
    · intro hex
      simp only [findMatches]
      refine List.mem_flatMap.mpr ⟨(p, c), List.mem_iff_getElem?.mpr ⟨kf, hf⟩, ?_⟩
      refine List.mem_flatMap.mpr ⟨ki, List.mem_range.mpr hki, ?_⟩
      refine List.mem_filterMap.mpr ⟨v, hv, ?_⟩
      rw [hgetD, if_pos hex]
  refine ⟨hmain, ?_⟩
  intro hfalse hmem
  rw [hmain.mp hmem] at hfalse
  exact Bool.noConfusion hfalse

/-- Witness for `findMatches_iff_exact`: at line 2 of the concrete corpus
the predicate holds and the candidate is emitted. -/
theorem findMatches_iff_exact_witness :
    (mkFileMatch "f.ts" (splitLines "hello\n\"hi there you\" end") 1
        "\"hi there you\" end" "hi there you" (cleanSearchText "hi there you")
        (extractDynamicPart (cleanSearchText "hi there you")) ∈
        findMatches scanFS "hi there you" ↔
      hasExactTextMatch "\"hi there you\" end" "hi there you" = true) ∧
    (hasExactTextMatch "\"hi there you\" end" "hi there you" = false →
      mkFileMatch "f.ts" (splitLines "hello\n\"hi there you\" end") 1
        "\"hi there you\" end" "hi there you" (cleanSearchText "hi there you")
        (extractDynamicPart (cleanSearchText "hi there you")) ∉
        findMatches scanFS "hi there you") :=
  findMatches_iff_exact scanFS "hi there you" 0 1 "f.ts"
    "hello\n\"hi there you\" end" "\"hi there you\" end" "hi there you"
    (by decide) (by decide) (by decide)

theorem twin_scan_eval :
    findMatches twinFS "helloworldtext" = [twinMatchA, twinMatchB] := by
  decide

theorem twin_filter_eval :
    filterByPageContext [twinMatchA, twinMatchB] twinCtx.pageContext =
      [twinMatchB, twinMatchA] := by
  decide

theorem twin_validScored_eval :
    validScored [twinMatchB, twinMatchA] twinCtx twinFS =
      [twinScoredB, twinScoredA] := by
  norm_num +decide [validScored, List.filterMap_cons, List.filterMap_nil,
    validateExactContext, validateTail,
    minRequiredScore, hasMinimalContextB, optTruthy, getFileContent, scoreMatch,
    jsMin, twinCtx, twinFS, twinMatchA, twinMatchB, twinScoredA, twinScoredB,
    selTokens, selTokensGo, stripSlashEnds, lookupFS]

theorem twin_scored_eval :
    scoreMatchesWithContext [twinMatchB, twinMatchA] twinCtx twinFS =
      [twinScoredB, twinScoredA] := by
  rw [scoreMatchesWithContext, twin_validScored_eval]
  norm_num [sortDescBy, insertDescBy, twinScoredA, twinScoredB]

theorem twin_best_eval :
    findBestMatch [twinScoredB, twinScoredA] = some twinScoredB := by
  norm_num +decide [findBestMatch, twinScoredA, twinScoredB, twinMatchA,
    twinMatchB, isContentAttrLine, contentAttributes]

theorem twin_update_eval :
    updateSourceFile twinFS twinMatchB twinCtx =
      ({ success := true, errorMessage := none }, twinFSAfter) := by
  decide

theorem twin_process_eval :
    processTextEdit twinFS twinCtx =
      ({ success := true, confidence := 1,
         matchedFilePath := some "beta/page.ts", lineNumber := some 1,
         matchContext := some "x=\"helloworldtext\" y",
         alternativeMatches := [], hasConflicts := false,
         errorMessage := none }, twinFSAfter) := by
  have hurl : twinCtx.pageContext = ({ pageUrl := "/" } : PageContext) := rfl
  have horig : twinCtx.originalText = "helloworldtext" := rfl
  simp only [processTextEdit, horig, twin_scan_eval, hurl]
  rw [show filterByPageContext [twinMatchA, twinMatchB] ({ pageUrl := "/" } : PageContext) =
      [twinMatchB, twinMatchA] from twin_filter_eval]
  rw [show scoreMatchesWithContext [twinMatchB, twinMatchA] twinCtx twinFS =
      [twinScoredB, twinScoredA] from twin_scored_eval]
  simp only [twin_best_eval]
  have hconf : ¬ twinScoredB.confidence < 1/2 := by
    norm_num [twinScoredB]
  rw [if_neg hconf]
  have htofm : twinScoredB.toFileMatch = twinMatchB := rfl
  rw [htofm, twin_update_eval]
  norm_num [twinScoredB, twinMatchB]

/-- Helper: membership in a filter that produced a cons. -/
theorem mem_of_filter_cons {α : Type} {p : α → Bool} {l r : List α} {t : α}
    (h : l.filter p = t :: r) : t ∈ l :=
  List.mem_of_mem_filter (h ▸ List.mem_cons_self t r)

/-- Helper: the head of a list is a member. -/
theorem mem_of_head?_eq {α : Type} {l : List α} {a : α} (h : l.head? = some a) :
    a ∈ l := by
  cases l with
  | nil => exact Option.noConfusion h
  | cons x xs =>
    rw [List.head?_cons, Option.some.injEq] at h
    exact h ▸ List.mem_cons_self x xs

/-- The ranker only ever returns an element of its input list. -/
theorem findBestMatch_mem {l : List ScoredMatch} {m : ScoredMatch}
    (h : findBestMatch l = some m) : m ∈ l := by
  cases l with
  | nil => exact Option.noConfusion h
  | cons b t =>
    simp only [findBestMatch] at h
    rcases h1 : (b :: t).filter (fun m => m.isTextContentMatch && !m.isAttributeMatch)
      with _ | ⟨t1, r1⟩ <;> simp only [h1] at h
    case cons => exact (Option.some.inj h) ▸ mem_of_filter_cons h1
    rcases h2 : (b :: t).filter (fun m =>
        m.isTextContentMatch && m.isAttributeMatch && isContentAttrLine m.originalLine)
      with _ | ⟨t2, r2⟩ <;> simp only [h2] at h
    case cons => exact (Option.some.inj h) ▸ mem_of_filter_cons h2
    rcases h3 : (b :: t).filter (fun m => m.isTextContentMatch && m.isAttributeMatch)
      with _ | ⟨t3, r3⟩ <;> simp only [h3] at h
    case cons => exact (Option.some.inj h) ▸ mem_of_filter_cons h3
    split at h
    · exact List.mem_of_mem_filter (mem_of_head?_eq h)
    · exact (Option.some.inj h) ▸ List.mem_cons_self b t

/-- Bounds on the confidence assigned to any validated candidate: it always
lies between 1/4 and 1. -/
theorem scoreMatch_confidence_bounds (mtch : FileMatch) (ctx : EditContext) :
    1/4 ≤ (scoreMatch mtch ctx).confidence ∧ (scoreMatch mtch ctx).confidence ≤ 1 := by
  simp only [scoreMatch]
  split_ifs <;> norm_num [jsMin]

/-- Every member of the scored set has confidence in [0, 1]. -/
theorem scored_confidence_bounds (ms : List FileMatch) (ctx : EditContext)
    (fs : FS) (m : ScoredMatch) (hm : m ∈ scoreMatchesWithContext ms ctx fs) :
    0 ≤ m.confidence ∧ m.confidence ≤ 1 := by
  rw [scoreMatchesWithContext, mem_sortDescBy] at hm
  rw [validScored] at hm
  rcases List.mem_filterMap.mp hm with ⟨mtch, _, heq⟩
  split at heq
  · have hb := scoreMatch_confidence_bounds mtch ctx
    rw [Option.some.inj heq] at hb
    exact ⟨le_trans (by norm_num) hb.1, hb.2⟩
  · exact Option.noConfusion heq

/-- C1: every result has confidence in [0, 1]; a successful result has
confidence at least 1/2 (the acceptance threshold); and the confidence of
every validated candidate — the capped `score/4` — also lies in [0, 1]. -/
theorem processTextEdit_confidence (fs : FS) (ctx : EditContext) :
    (0 ≤ (processTextEdit fs ctx).1.confidence ∧
      (processTextEdit fs ctx).1.confidence ≤ 1) ∧
    ((processTextEdit fs ctx).1.success = true →
      1/2 ≤ (processTextEdit fs ctx).1.confidence) ∧
    (∀ ms m, m ∈ scoreMatchesWithContext ms ctx fs →
      0 ≤ m.confidence ∧ m.confidence ≤ 1) := by
  refine ⟨?_, ?_, fun ms m hm => scored_confidence_bounds ms ctx fs m hm⟩ <;>
  · by_cases hempty : (findMatches fs ctx.originalText).isEmpty
    · simp [processTextEdit, hempty]
    · rcases hbest : findBestMatch (scoreMatchesWithContext
        (filterByPageContext (findMatches fs ctx.originalText) ctx.pageContext) ctx fs)
        with _ | best
      · simp [processTextEdit, hempty, hbest]
      · have hb := scored_confidence_bounds _ ctx fs best (findBestMatch_mem hbest)
        by_cases hlow : best.confidence < 1/2
        · simp only [processTextEdit, if_neg hempty, hbest, if_pos hlow]
          first
          | exact hb
          | exact fun hsucc => by simp at hsucc
        · simp only [processTextEdit, if_neg hempty, hbest, if_neg hlow]
          split
          · first
            | exact hb
            | exact fun _ => le_of_not_lt hlow
          · first
            | exact hb
            | exact fun hsucc => by simp at hsucc

/-- Witness for `processTextEdit_confidence`: the twin corpus produces a
successful result, whose confidence is therefore at least 1/2. -/
theorem processTextEdit_confidence_witness :
    (1 : ℚ)/2 ≤ (processTextEdit twinFS twinCtx).1.confidence :=
  (processTextEdit_confidence twinFS twinCtx).2.1
    (by rw [twin_process_eval])

/-- The ranker never returns `none` on a non-empty list. -/
theorem findBestMatch_cons_ne_none (b : ScoredMatch) (t : List ScoredMatch) :
    findBestMatch (b :: t) ≠ none := by
  simp only [findBestMatch]
  rcases h1 : (b :: t).filter (fun m => m.isTextContentMatch && !m.isAttributeMatch)
    with _ | ⟨t1, r1⟩ <;> simp only [h1]
  case cons => simp
  rcases h2 : (b :: t).filter (fun m =>
      m.isTextContentMatch && m.isAttributeMatch && isContentAttrLine m.originalLine)
    with _ | ⟨t2, r2⟩ <;> simp only [h2]
  case cons => simp
  rcases h3 : (b :: t).filter (fun m => m.isTextContentMatch && m.isAttributeMatch)
    with _ | ⟨t3, r3⟩ <;> simp only [h3]
  case cons => simp
  split
  · rename_i hlen
    rcases hhigh : (b :: t).filter (fun m => decide ((1 : ℚ)/2 < m.confidence))
      with _ | ⟨h0, hr⟩
    · rw [hhigh] at hlen
      simp at hlen
    · rw [hhigh]
      simp
  · simp

/-- C7 (amended): `hasConflicts` is true exactly on the low-confidence
failure path with a conflict — the scan found raw candidates, at least two
candidates passed validation, and the ranked best (when one exists) has
confidence below 1/2.  On every other path, including every successful edit,
it is false. -/
theorem hasConflicts_iff (fs : FS) (ctx : EditContext) :
    (processTextEdit fs ctx).1.hasConflicts = true ↔
      ((findMatches fs ctx.originalText).isEmpty = false ∧
       1 < (scoreMatchesWithContext (filterByPageContext
          (findMatches fs ctx.originalText) ctx.pageContext) ctx fs).length ∧
       ∀ b, findBestMatch (scoreMatchesWithContext (filterByPageContext
          (findMatches fs ctx.originalText) ctx.pageContext) ctx fs) = some b →
         b.confidence < 1/2) := by
  by_cases hempty : (findMatches fs ctx.originalText).isEmpty
  · simp [processTextEdit, hempty]
  · rcases hbest : findBestMatch (scoreMatchesWithContext (filterByPageContext
        (findMatches fs ctx.originalText) ctx.pageContext) ctx fs) with _ | best
    · have hnil : scoreMatchesWithContext (filterByPageContext
          (findMatches fs ctx.originalText) ctx.pageContext) ctx fs = [] := by
        rcases hsc : scoreMatchesWithContext (filterByPageContext
            (findMatches fs ctx.originalText) ctx.pageContext) ctx fs with _ | ⟨sb, st⟩
        · rfl
        · rw [hsc] at hbest
          exact absurd hbest (findBestMatch_cons_ne_none sb st)
      simp [processTextEdit, hempty, hbest, hnil, findBestMatch]
    · simp only [processTextEdit, if_neg hempty, hbest]
      by_cases hlow : best.confidence < 1/2
      · rw [if_pos hlow]
        simp only [decide_eq_true_eq]
        constructor
        · intro hlen
          exact ⟨by simpa using hempty, hlen,
            fun b hb => (Option.some.inj hb) ▸ hlow⟩
        · intro h
          exact h.2.1
      · rw [if_neg hlow]
        split
        · constructor
          · intro hfalse
            exact absurd hfalse (by simp)
          · rintro ⟨-, -, hall⟩
            exact absurd (hall best rfl) hlow
        · constructor
          · intro hfalse
            exact absurd hfalse (by simp)
          · rintro ⟨-, -, hall⟩
            exact absurd (hall best rfl) hlow

/-- C7 is false as stated: in the twin corpus two candidates pass validation,
the edit succeeds, and the result still reports `hasConflicts = false`. -/
theorem hasConflicts_counterexample :
    (processTextEdit twinFS twinCtx).1.success = true ∧
    (scoreMatchesWithContext (filterByPageContext (findMatches twinFS twinCtx.originalText)
      twinCtx.pageContext) twinCtx twinFS).length = 2 ∧
    (processTextEdit twinFS twinCtx).1.hasConflicts = false := by
  refine ⟨by rw [twin_process_eval], ?_, by rw [twin_process_eval]⟩
  rw [show twinCtx.originalText = "helloworldtext" from rfl, twin_scan_eval,
    twin_filter_eval, twin_scored_eval]
  rfl

/-- C6 (amended): the scored list is sorted by descending confidence and is
stable over the validated (page-relevance) order — equal-confidence
candidates keep that order, which is not raw discovery order.  The ranker
returns the first element of the first non-empty bucket — (a) pure
text-content matches, (b) content-attribute matches, (c) mixed matches — in
scored order; otherwise it returns the head of the scored list, which has
maximal confidence. -/
theorem findBestMatch_precedence (ms : List FileMatch) (ctx : EditContext)
    (fs : FS) (ss : List ScoredMatch)
    (hss : ss = scoreMatchesWithContext ms ctx fs) :
    List.Pairwise (fun a b => b.confidence ≤ a.confidence) ss ∧
    (∀ c : ℚ, ss.filter (fun m => decide (m.confidence = c)) =
      (validScored ms ctx fs).filter (fun m => decide (m.confidence = c))) ∧
    (∀ best, findBestMatch ss = some best →
      (ss.filter (fun m => m.isTextContentMatch && !m.isAttributeMatch) ≠ [] →
        (ss.filter (fun m => m.isTextContentMatch && !m.isAttributeMatch)).head? =
          some best) ∧
      (ss.filter (fun m => m.isTextContentMatch && !m.isAttributeMatch) = [] →
       ss.filter (fun m => m.isTextContentMatch && m.isAttributeMatch &&
          isContentAttrLine m.originalLine) ≠ [] →
        (ss.filter (fun m => m.isTextContentMatch && m.isAttributeMatch &&
          isContentAttrLine m.originalLine)).head? = some best) ∧
      (ss.filter (fun m => m.isTextContentMatch && !m.isAttributeMatch) = [] →
       ss.filter (fun m => m.isTextContentMatch && m.isAttributeMatch &&
          isContentAttrLine m.originalLine) = [] →
       ss.filter (fun m => m.isTextContentMatch && m.isAttributeMatch) ≠ [] →
        (ss.filter (fun m => m.isTextContentMatch && m.isAttributeMatch)).head? =
          some best) ∧
      (ss.filter (fun m => m.isTextContentMatch && !m.isAttributeMatch) = [] →
       ss.filter (fun m => m.isTextContentMatch && m.isAttributeMatch &&
          isContentAttrLine m.originalLine) = [] →
       ss.filter (fun m => m.isTextContentMatch && m.isAttributeMatch) = [] →
        ss.head? = some best ∧ ∀ m ∈ ss, m.confidence ≤ best.confidence)) := by
  have hsorted : List.Pairwise (fun a b => b.confidence ≤ a.confidence) ss := by
    rw [hss, scoreMatchesWithContext]
    exact sortDescBy_sorted (fun m : ScoredMatch => m.confidence) _
  refine ⟨hsorted, ?_, ?_⟩
  · intro c
    rw [hss, scoreMatchesWithContext]
    exact sortDescBy_filter (fun m : ScoredMatch => m.confidence) _ c
  · intro best hbest
    cases ss with
    | nil => exact Option.noConfusion hbest
    | cons b t =>
      simp only [findBestMatch] at hbest
      rcases h1 : (b :: t).filter (fun m => m.isTextContentMatch && !m.isAttributeMatch)
        with _ | ⟨t1, r1⟩ <;> simp only [h1] at hbest
      case cons =>
        refine ⟨fun _ => by rw [h1, List.head?_cons]; exact hbest,
          fun hc _ => absurd (h1.symm.trans hc) (List.cons_ne_nil t1 r1),
          fun hc _ _ => absurd (h1.symm.trans hc) (List.cons_ne_nil t1 r1),
          fun hc _ _ => absurd (h1.symm.trans hc) (List.cons_ne_nil t1 r1)⟩
      rcases h2 : (b :: t).filter (fun m =>
          m.isTextContentMatch && m.isAttributeMatch && isContentAttrLine m.originalLine)
        with _ | ⟨t2, r2⟩ <;> simp only [h2] at hbest
      case cons =>
        refine ⟨fun hc => absurd h1 hc,
          fun _ _ => by rw [h2, List.head?_cons]; exact hbest,
          fun _ hc _ => absurd (h2.symm.trans hc) (List.cons_ne_nil t2 r2),
          fun _ hc _ => absurd (h2.symm.trans hc) (List.cons_ne_nil t2 r2)⟩
      rcases h3 : (b :: t).filter (fun m => m.isTextContentMatch && m.isAttributeMatch)
        with _ | ⟨t3, r3⟩ <;> simp only [h3] at hbest
      case cons =>
        refine ⟨fun hc => absurd h1 hc,
          fun _ hc => absurd h2 hc,
          fun _ _ _ => by rw [h3, List.head?_cons]; exact hbest,
          fun _ _ hc => absurd (h3.symm.trans hc) (List.cons_ne_nil t3 r3)⟩
      have hb : b = best := by
        split at hbest
        · rename_i hlen
          rcases hhigh : (b :: t).filter (fun m => decide ((1 : ℚ)/2 < m.confidence))
            with _ | ⟨h0, hr⟩
          · rw [hhigh] at hlen
            simp at hlen
          · have hh0 : h0 ∈ (b :: t).filter (fun m => decide ((1 : ℚ)/2 < m.confidence)) := by
              rw [hhigh]
              exact List.mem_cons_self h0 hr
            have hh0p := List.of_mem_filter hh0
            have hh0m := List.mem_of_mem_filter hh0
            have hbconf : (1 : ℚ)/2 < b.confidence := by
              have hle : h0.confidence ≤ b.confidence := by
                rcases List.mem_cons.mp hh0m with rfl | hmem
                · exact le_refl _
                · rw [List.pairwise_cons] at hsorted
                  exact hsorted.1 h0 hmem
              exact lt_of_lt_of_le (by simpa using hh0p) hle
            have hfc : (b :: t).filter (fun m => decide ((1 : ℚ)/2 < m.confidence)) =
                b :: t.filter (fun m => decide ((1 : ℚ)/2 < m.confidence)) := by
              rw [List.filter_cons_of_pos (by simpa using hbconf)]
            rw [hfc, List.head?_cons] at hbest
            exact Option.some.inj hbest
        · exact Option.some.inj hbest
      refine ⟨fun hc => absurd h1 hc, fun _ hc => absurd h2 hc,
        fun _ _ hc => absurd h3 hc, fun _ _ _ => ⟨by rw [List.head?_cons, hb], ?_⟩⟩
      intro m hm
      rcases List.mem_cons.mp hm with rfl | hmem
      · exact hb ▸ le_refl _
      · rw [List.pairwise_cons] at hsorted
        exact hb ▸ hsorted.1 m hmem

/-- Witness for `findBestMatch_precedence` at the twin corpus: the scored
list is sorted, and since all three buckets are empty the ranker returns the
head, which has maximal confidence. -/
theorem findBestMatch_precedence_witness :
    List.Pairwise (fun a b => b.confidence ≤ a.confidence)
      [twinScoredB, twinScoredA] ∧
    ([twinScoredB, twinScoredA].head? = some twinScoredB ∧
      ∀ m ∈ [twinScoredB, twinScoredA], m.confidence ≤ twinScoredB.confidence) := by
  have h := findBestMatch_precedence [twinMatchB, twinMatchA] twinCtx twinFS
    [twinScoredB, twinScoredA] twin_scored_eval.symm
  exact ⟨h.1, (h.2.2 twinScoredB twin_best_eval).2.2.2 (by decide) (by decide) (by decide)⟩

/-- C6 is false as stated: in the twin corpus both surviving candidates tie
at confidence 1 and all three preference buckets are empty, the candidate in
`alpha.ts` was discovered first, yet the ranker selects the `beta/page.ts`
candidate — equal-confidence ties follow the page-relevance order, not
original discovery order. -/
theorem findBestMatch_counterexample :
    (findMatches twinFS twinCtx.originalText).map (fun m => m.filePath) =
      ["alpha.ts", "beta/page.ts"] ∧
    scoreMatchesWithContext (filterByPageContext
      (findMatches twinFS twinCtx.originalText) twinCtx.pageContext) twinCtx twinFS =
      [twinScoredB, twinScoredA] ∧
    twinScoredA.confidence = twinScoredB.confidence ∧
    twinScoredA.filePath = "alpha.ts" ∧
    twinScoredB.filePath = "beta/page.ts" ∧
    findBestMatch [twinScoredB, twinScoredA] = some twinScoredB := by
  refine ⟨by decide, ?_, rfl, rfl, rfl, twin_best_eval⟩
  rw [show twinCtx.originalText = "helloworldtext" from rfl, twin_scan_eval,
    twin_filter_eval, twin_scored_eval]

/-- The validator's verdict is either an outright rejection or the
comparison of the accumulated score against the threshold. -/
theorem validate_isValid_cases (m : FileMatch) (ctx : EditContext) (u : Bool)
    (fs : FS) :
    (validateExactContext m ctx u fs).isValid = false ∨
    (validateExactContext m ctx u fs).isValid =
      decide ((validateExactContext m ctx u fs).minRequired ≤
        (validateExactContext m ctx u fs).score) := by
  simp only [validateExactContext]
  split_ifs <;> first | exact Or.inl rfl | exact Or.inr rfl

/-- A scored-set member's underlying candidate comes from the input list. -/
theorem mem_validScored_toFileMatch (ms : List FileMatch) (ctx : EditContext)
    (fs : FS) (m : ScoredMatch) (hm : m ∈ validScored ms ctx fs) :
    m.toFileMatch ∈ ms ∧
    (validateExactContext m.toFileMatch ctx (decide (ms.length = 1)) fs).isValid = true := by
  rw [validScored] at hm
  rcases List.mem_filterMap.mp hm with ⟨mtch, hmem, heq⟩
  split at heq
  · rename_i hvalid
    have hmv : m.toFileMatch = mtch := by
      rw [← Option.some.inj heq]
      simp [scoreMatch]
    rw [hmv]
    exact ⟨hmem, hvalid⟩
  · exact Option.noConfusion heq

/-- C5: the validation acceptance threshold equals the claimed
context-dependent table; a candidate whose accumulated score is below its
threshold is marked invalid; and candidates failing validation are excluded
from the scored set entirely. -/
theorem validation_threshold (ctx : EditContext) (u : Bool) (m : FileMatch)
    (fs : FS) :
    minRequiredScore ctx u = thresholdClaim ctx u ∧
    (validateExactContext m ctx u fs).minRequired = minRequiredScore ctx u ∧
    ((validateExactContext m ctx u fs).score <
        (validateExactContext m ctx u fs).minRequired →
      (validateExactContext m ctx u fs).isValid = false) ∧
    (∀ ms sm, sm ∈ scoreMatchesWithContext ms ctx fs →
      (validateExactContext sm.toFileMatch ctx (decide (ms.length = 1)) fs).isValid
        = true) := by
  refine ⟨?_, ?_, ?_, ?_⟩
  · simp only [minRequiredScore, thresholdClaim]
    by_cases hid : optTruthy ctx.elementContext.elementId <;>
    by_cases hu : u = true <;>
    by_cases hcl : 3 ≤ (ctx.elementContext.elementClasses.getD []).length <;>
    simp [hid, hu, hcl]
  · simp only [validateExactContext]
    split_ifs <;> simp [validateTail]
  · intro hlt
    rcases validate_isValid_cases m ctx u fs with hfalse | heq
    · exact hfalse
    · rw [heq]
      exact decide_eq_false (not_le.mpr hlt)
  · intro ms sm hsm
    rw [scoreMatchesWithContext, mem_sortDescBy] at hsm
    exact (mem_validScored_toFileMatch ms ctx fs sm hsm).2

/-- Witness for `validation_threshold`: the threshold formulas agree at the
twin request, and the scored candidate from `alpha.ts` was indeed validated. -/
theorem validation_threshold_witness :
    minRequiredScore twinCtx false = thresholdClaim twinCtx false ∧
    (validateExactContext twinScoredA.toFileMatch twinCtx
      (decide (([twinMatchB, twinMatchA] : List FileMatch).length = 1))
      twinFS).isValid = true :=
  ⟨(validation_threshold twinCtx false twinMatchA twinFS).1,
   (validation_threshold twinCtx false twinMatchA twinFS).2.2.2
     [twinMatchB, twinMatchA] twinScoredA
     (by rw [twin_scored_eval]
         exact List.mem_cons_of_mem _ (List.mem_cons_self _ _))⟩

/-- C10's amended filter characterisation: with a non-empty page URL at most
ten candidates — a prefix of a permutation of the scan results ranked by
descending page relevance — proceed past the filter, and every alternative
match of a result arises from that filtered set. -/
theorem filterByPageContext_bound (ms : List FileMatch) (pc : PageContext)
    (hurl : pc.pageUrl ≠ "") :
    (filterByPageContext ms pc).length ≤ 10 ∧
    (∃ l : List FileMatch, List.Perm l ms ∧
      List.Pairwise (fun a b => relevanceScore pc b ≤ relevanceScore pc a) l ∧
      filterByPageContext ms pc = l.take 10) ∧
    (∀ fs ctx m', ctx.pageContext = pc →
      m' ∈ (processTextEdit fs ctx).1.alternativeMatches →
      m'.toFileMatch ∈ filterByPageContext (findMatches fs ctx.originalText) pc) := by
  refine ⟨?_, ?_, ?_⟩
  · rw [filterByPageContext, if_neg hurl]
    exact List.length_take_le 10 _
  · refine ⟨(sortDescBy (fun pr => pr.2)
      (ms.map (fun m => (m, relevanceScore pc m)))).map (·.1), ?_, ?_, ?_⟩
    · have hp := List.Perm.map (fun pr : FileMatch × Nat => pr.1)
        (sortDescBy_perm (fun pr : FileMatch × Nat => pr.2)
          (ms.map (fun m => (m, relevanceScore pc m))))
      have hmapmap : (ms.map (fun m => (m, relevanceScore pc m))).map
          (fun pr : FileMatch × Nat => pr.1) = ms := by
        rw [List.map_map]
        have : ((fun pr : FileMatch × Nat => pr.1) ∘
            (fun m => (m, relevanceScore pc m))) = id := by
          funext x
          rfl
        rw [this, List.map_id]
      rw [hmapmap] at hp
      exact hp
    · rw [List.pairwise_map]
      have hsorted := sortDescBy_sorted (fun pr : FileMatch × Nat => pr.2)
        (ms.map (fun m => (m, relevanceScore pc m)))
      refine List.Pairwise.imp_of_mem ?_ hsorted
      intro a b ha hb hab
      have hval : ∀ p : FileMatch × Nat,
          p ∈ sortDescBy (fun pr : FileMatch × Nat => pr.2)
            (ms.map (fun m => (m, relevanceScore pc m))) →
          p.2 = relevanceScore pc p.1 := by
        intro p hp
        rcases List.mem_map.mp ((mem_sortDescBy _).mp hp) with ⟨m0, _, hm0⟩
        rw [← hm0]
      rw [← hval a ha, ← hval b hb]
      exact hab
    · rw [filterByPageContext, if_neg hurl]
  · intro fs ctx m' hpc hm'
    subst hpc
    by_cases hempty : (findMatches fs ctx.originalText).isEmpty
    · simp [processTextEdit, hempty] at hm'
    · rcases hbest : findBestMatch (scoreMatchesWithContext (filterByPageContext
          (findMatches fs ctx.originalText) ctx.pageContext) ctx fs) with _ | best
      · simp only [processTextEdit, if_neg hempty, hbest] at hm'
        rw [scoreMatchesWithContext, mem_sortDescBy] at hm'
        exact (mem_validScored_toFileMatch _ ctx fs m' hm').1
      · simp only [processTextEdit, if_neg hempty, hbest] at hm'
        by_cases hlow : best.confidence < 1/2
        · rw [if_pos hlow] at hm'
          rw [scoreMatchesWithContext, mem_sortDescBy] at hm'
          exact (mem_validScored_toFileMatch _ ctx fs m' hm').1
        · rw [if_neg hlow] at hm'
          split at hm' <;> simp at hm'

/-- Witness for `filterByPageContext_bound` at the twin scan results. -/
theorem filterByPageContext_bound_witness :
    (filterByPageContext [twinMatchA, twinMatchB] twinCtx.pageContext).length ≤ 10 :=
  (filterByPageContext_bound [twinMatchA, twinMatchB] twinCtx.pageContext
    (by decide)).1

/-- C10 is false as stated: with an empty page URL the filter passes all
eleven candidates through to validation, not at most ten. -/
theorem filterByPageContext_counterexample :
    (findMatches elevenFS "helloworldtext").length = 11 ∧
    filterByPageContext (findMatches elevenFS "helloworldtext")
      { pageUrl := "" } = findMatches elevenFS "helloworldtext" := by
  constructor
  · decide
  · rw [filterByPageContext, if_pos rfl]

/-- C9's failing input evaluated: for the line `<a href="X">X</a>` with old
text `X` and new text `Y`, the angle-bracket strategy rewrites the
occurrence inside the tag's attribute syntax and leaves the inter-tag text
content unchanged. -/
theorem replaceTextContent_rewrites_tag_syntax :
    replaceTextContent "<a href=\"X\">X</a>" "X" "Y" = "<a href=\"Y\">X</a>" := by
  decide

theorem dropWhile_head?_false (p : Char → Bool) (l : List Char) (c : Char)
    (h : (l.dropWhile p).head? = some c) : p c = false := by
  induction l with
  | nil => exact Option.noConfusion h
  | cons x xs ih =>
    rw [List.dropWhile_cons] at h
    split at h
    · exact ih h
    · rename_i hx
      rw [List.head?_cons, Option.some.injEq] at h
      subst h
      exact Bool.of_not_eq_true hx

theorem dropWhile_eq_self_of_head (p : Char → Bool) (l : List Char)
    (h : ∀ c, l.head? = some c → p c = false) : l.dropWhile p = l := by
  cases l with
  | nil => rfl
  | cons x xs =>
    rw [List.dropWhile_cons, if_neg]
    intro hx
    rw [h x rfl] at hx
    exact Bool.noConfusion hx

theorem dropLastWhile_getLast?_false (p : Char → Bool) (l : List Char) (c : Char)
    (h : (dropLastWhile p l).getLast? = some c) : p c = false := by
  rw [dropLastWhile, List.getLast?_reverse] at h
  exact dropWhile_head?_false p l.reverse c h

theorem dropLastWhile_eq_self_of_getLast (p : Char → Bool) (l : List Char)
    (h : ∀ c, l.getLast? = some c → p c = false) : dropLastWhile p l = l := by
  rw [dropLastWhile,
    dropWhile_eq_self_of_head p l.reverse
      (fun c hc => h c ((List.head?_reverse l) ▸ hc)),
    List.reverse_reverse]

theorem dropLastWhile_append (p : Char → Bool) (l : List Char) :
    ∃ rest, l = dropLastWhile p l ++ rest := by
  refine ⟨(l.reverse.takeWhile p).reverse, ?_⟩
  have h1 : List.takeWhile p l.reverse ++ List.dropWhile p l.reverse = l.reverse :=
    List.takeWhile_append_dropWhile p l.reverse
  calc l = l.reverse.reverse := (List.reverse_reverse l).symm
  _ = (List.takeWhile p l.reverse ++ List.dropWhile p l.reverse).reverse := by rw [h1]
  _ = (List.dropWhile p l.reverse).reverse ++ (List.takeWhile p l.reverse).reverse := by
      rw [List.reverse_append]
  _ = dropLastWhile p l ++ (l.reverse.takeWhile p).reverse := rfl

theorem head?_of_append_eq (xs ys : List Char) (c : Char)
    (h : xs.head? = some c) : (xs ++ ys).head? = some c := by
  cases xs with
  | nil => exact Option.noConfusion h
  | cons a as => simpa using h

theorem trimL_idem (l : List Char) : trimL (trimL l) = trimL l := by
  rw [trimL, trimL]
  have hhead : ∀ c,
      (dropLastWhile isJsWs (l.dropWhile isJsWs)).head? = some c → isJsWs c = false := by
    intro c hc
    rcases dropLastWhile_append isJsWs (l.dropWhile isJsWs) with ⟨rest, hr⟩
    have h2 : (l.dropWhile isJsWs).head? = some c := by
      conv_lhs => rw [hr]
      exact head?_of_append_eq _ rest c hc
    exact dropWhile_head?_false isJsWs l c h2
  rw [dropWhile_eq_self_of_head isJsWs _ hhead]
  exact dropLastWhile_eq_self_of_getLast isJsWs _
    (fun c hc => dropLastWhile_getLast?_false isJsWs _ c hc)

theorem mem_of_dropWhile (p : Char → Bool) (l : List Char) (c : Char)
    (h : c ∈ l.dropWhile p) : c ∈ l := by
  have h1 : List.takeWhile p l ++ List.dropWhile p l = l :=
    List.takeWhile_append_dropWhile p l
  rw [← h1]
  exact List.mem_append_right _ h

theorem mem_of_dropLastWhile (p : Char → Bool) (l : List Char) (c : Char)
    (h : c ∈ dropLastWhile p l) : c ∈ l := by
  rcases dropLastWhile_append p l with ⟨rest, hr⟩
  rw [hr]
  exact List.mem_append_left _ h

theorem mem_of_dropLast {l : List Char} {c : Char} (h : c ∈ l.dropLast) : c ∈ l :=
  (List.dropLast_sublist l).mem h

theorem mem_of_trimL (l : List Char) (c : Char) (h : c ∈ trimL l) : c ∈ l :=
  mem_of_dropWhile isJsWs l c (mem_of_dropLastWhile isJsWs _ c h)

theorem chain'_append_left {P : Char → Char → Prop} {xs ys : List Char}
    (h : List.Chain' P (xs ++ ys)) : List.Chain' P xs :=
  (List.chain'_append.mp h).1

theorem chain'_append_right {P : Char → Char → Prop} {xs ys : List Char}
    (h : List.Chain' P (xs ++ ys)) : List.Chain' P ys :=
  (List.chain'_append.mp h).2.1

theorem chain'_dropWhile {P : Char → Char → Prop} (p : Char → Bool)
    {l : List Char} (h : List.Chain' P l) : List.Chain' P (l.dropWhile p) := by
  have h1 : List.takeWhile p l ++ List.dropWhile p l = l :=
    List.takeWhile_append_dropWhile p l
  rw [← h1] at h
  exact chain'_append_right h

theorem chain'_dropLastWhile {P : Char → Char → Prop} (p : Char → Bool)
    {l : List Char} (h : List.Chain' P l) : List.Chain' P (dropLastWhile p l) := by
  rcases dropLastWhile_append p l with ⟨rest, hr⟩
  rw [hr] at h
  exact chain'_append_left h

theorem chain'_dropLast {P : Char → Char → Prop} {l : List Char}
    (h : List.Chain' P l) : List.Chain' P l.dropLast := by
  have h1 : l.take (l.length - 1) ++ l.drop (l.length - 1) = l :=
    List.take_append_drop _ l
  rw [← h1] at h
  rw [List.dropLast_eq_take]
  exact chain'_append_left h

theorem chain'_trimL {P : Char → Char → Prop} {l : List Char}
    (h : List.Chain' P l) : List.Chain' P (trimL l) :=
  chain'_dropLastWhile isJsWs (chain'_dropWhile isJsWs h)

theorem mem_collapseWsAux (l : List Char) :
    ∀ b c, c ∈ collapseWsAux b l → c = ' ' ∨ c ∈ l := by
  induction l with
  | nil => intro b c h; simp [collapseWsAux] at h
  | cons x xs ih =>
    intro b c h
    simp only [collapseWsAux] at h
    split at h
    · split at h
      · rcases ih true c h with h' | h'
        · exact Or.inl h'
        · exact Or.inr (List.mem_cons_of_mem x h')
      · rcases List.mem_cons.mp h with rfl | h2
        · exact Or.inl rfl
        · rcases ih true c h2 with h' | h'
          · exact Or.inl h'
          · exact Or.inr (List.mem_cons_of_mem x h')
    · rcases List.mem_cons.mp h with rfl | h2
      · exact Or.inr (List.mem_cons_self _ _)
      · rcases ih false c h2 with h' | h'
        · exact Or.inl h'
        · exact Or.inr (List.mem_cons_of_mem x h')

theorem collapseWsAux_ws_space (l : List Char) :
    ∀ b c, c ∈ collapseWsAux b l → isJsWs c = true → c = ' ' := by
  induction l with
  | nil => intro b c h; simp [collapseWsAux] at h
  | cons x xs ih =>
    intro b c h hws
    simp only [collapseWsAux] at h
    split at h
    · split at h
      · exact ih true c h hws
      · rcases List.mem_cons.mp h with rfl | h2
        · rfl
        · exact ih true c h2 hws
    · rcases List.mem_cons.mp h with rfl | h2
      · rename_i hx
        rw [hws] at hx
        exact absurd rfl hx
      · exact ih false c h2 hws

theorem collapseWsAux_true_head (l : List Char) (c : Char)
    (h : (collapseWsAux true l).head? = some c) : isJsWs c = false := by
  induction l with
  | nil => exact Option.noConfusion h
  | cons x xs ih =>
    simp only [collapseWsAux] at h
    split at h
    · exact ih h
    · rename_i hx
      rw [List.head?_cons, Option.some.injEq] at h
      subst h
      exact Bool.of_not_eq_true hx

theorem chain'_collapseWsAux (l : List Char) :
    ∀ b, List.Chain' noWsPair (collapseWsAux b l) := by
  induction l with
  | nil => intro b; simp [collapseWsAux]
  | cons x xs ih =>
    intro b
    simp only [collapseWsAux]
    split
    · split
      · exact ih true
      · rw [List.chain'_cons']
        refine ⟨?_, ih true⟩
        intro h hh
        intro hcontra
        rw [collapseWsAux_true_head xs h hh] at hcontra
        exact Bool.noConfusion hcontra.2
    · rename_i hx
      rw [List.chain'_cons']
      refine ⟨?_, ih false⟩
      intro h _
      intro hcontra
      exact hx hcontra.1

theorem collapseWsAux_eq_self (l : List Char)
    (hws : ∀ c ∈ l, isJsWs c = true → c = ' ')
    (hch : List.Chain' noWsPair l) :
    ∀ b, (b = true → ∀ c, l.head? = some c → isJsWs c = false) →
      collapseWsAux b l = l := by
  induction l with
  | nil => intro b _; rfl
  | cons x xs ih =>
    intro b hb
    simp only [collapseWsAux]
    rw [List.chain'_cons'] at hch
    split
    · rename_i hx
      have hxs : x = ' ' := hws x (List.mem_cons_self x xs) hx
      have htail : collapseWsAux true xs = xs := by
        apply ih (fun c hc hw => hws c (List.mem_cons_of_mem x hc) hw) hch.2 true
        intro _ c hc
        by_contra hcon
        exact (hch.1 c hc) ⟨hx, Bool.of_not_eq_false hcon⟩
      split
      · rename_i hbtrue
        exfalso
        have := hb hbtrue x rfl
        rw [hx] at this
        exact Bool.noConfusion this
      · rw [htail, hxs]
    · congr 1
      exact ih (fun c hc hw => hws c (List.mem_cons_of_mem x hc) hw) hch.2 false
        (fun hfalse => Bool.noConfusion hfalse)

theorem collapseWs_eq_self (l : List Char)
    (hws : ∀ c ∈ l, isJsWs c = true → c = ' ')
    (hch : NoWsRun l) : collapseWs l = l := by
  rw [collapseWs]
  exact collapseWsAux_eq_self l hws hch false (fun h => Bool.noConfusion h)

theorem replaceChars_id (as r l : List Char)
    (h : ∀ c ∈ l, as.contains c = false) : replaceChars as r l = l := by
  induction l with
  | nil => rfl
  | cons x xs ih =>
    rw [replaceChars, List.flatMap_cons, if_neg, List.singleton_append]
    · rw [show xs.flatMap (fun c => if as.contains c then r else [c]) =
          replaceChars as r xs from rfl,
        ih (fun c hc => h c (List.mem_cons_of_mem x hc))]
    · intro hx
      rw [h x (List.mem_cons_self x xs)] at hx
      exact Bool.noConfusion hx

theorem mem_replaceChars (as r l : List Char) (c : Char)
    (h : c ∈ replaceChars as r l) :
    c ∈ r ∨ (c ∈ l ∧ as.contains c = false) := by
  induction l with
  | nil => simp [replaceChars] at h
  | cons x xs ih =>
    rw [replaceChars, List.flatMap_cons] at h
    rcases List.mem_append.mp h with h1 | h2
    · split at h1
      · exact Or.inl h1
      · rename_i hx
        rcases List.mem_singleton.mp h1 with rfl
        exact Or.inr ⟨List.mem_cons_self _ _, Bool.of_not_eq_true hx⟩
    · rcases ih h2 with h' | ⟨hmem, hcon⟩
      · exact Or.inl h'
      · exact Or.inr ⟨List.mem_cons_of_mem x hmem, hcon⟩

theorem hasSub_cons_false {pat : List Char} {c : Char} {rest : List Char}
    (h : hasSub pat (c :: rest) = false) :
    pat.isPrefixOf (c :: rest) = false ∧ hasSub pat rest = false := by
  rw [hasSub] at h
  exact Bool.or_eq_false_iff.mp h

theorem replaceAllGo_id (pat rep : List Char) :
    ∀ fuel l, hasSub pat l = false → replaceAllGo pat rep fuel l = l := by
  intro fuel
  induction fuel with
  | zero => intro l _; rfl
  | succ n ih =>
    intro l hl
    cases l with
    | nil => rfl
    | cons c rest =>
      rcases hasSub_cons_false hl with ⟨h1, h2⟩
      rw [replaceAllGo, if_neg (by rw [h1]; exact Bool.noConfusion), ih rest h2]

theorem replaceAllL_id (pat rep l : List Char) (hpat : pat ≠ [])
    (h : hasSub pat l = false) : replaceAllL pat rep l = l := by
  rw [replaceAllL, if_neg (by simpa using hpat)]
  exact replaceAllGo_id pat rep l.length l h

theorem entityFold_id (l : List Char)
    (h : ∀ p ∈ entityPairs, hasSub p.1.data l = false) :
    entityPairs.foldl (fun acc p => replaceAllL p.1.data p.2.data acc) l = l := by
  have hgen : ∀ ps : List (String × String), (∀ p ∈ ps, p.1.data ≠ []) →
      (∀ p ∈ ps, hasSub p.1.data l = false) →
      ps.foldl (fun acc p => replaceAllL p.1.data p.2.data acc) l = l := by
    intro ps
    induction ps with
    | nil => intro _ _; rfl
    | cons q qs ih =>
      intro h1 h2
      rw [List.foldl_cons,
        replaceAllL_id q.1.data q.2.data l (h1 q (List.mem_cons_self q qs))
          (h2 q (List.mem_cons_self q qs))]
      exact ih (fun p hp => h1 p (List.mem_cons_of_mem q hp))
        (fun p hp => h2 p (List.mem_cons_of_mem q hp))
  exact hgen entityPairs (by decide) h

theorem collapseWs_ws_space (l : List Char) :
    ∀ c ∈ collapseWs l, isJsWs c = true → c = ' ' := by
  rw [collapseWs]
  exact collapseWsAux_ws_space l false

theorem noWsRun_collapseWs (l : List Char) : NoWsRun (collapseWs l) :=
  show List.Chain' noWsPair (collapseWs l) by
    rw [collapseWs]
    exact chain'_collapseWsAux l false

theorem noWsRun_dropWhile (p : Char → Bool) {l : List Char} (h : NoWsRun l) :
    NoWsRun (l.dropWhile p) :=
  chain'_dropWhile p h

theorem noWsRun_dropLastWhile (p : Char → Bool) {l : List Char} (h : NoWsRun l) :
    NoWsRun (dropLastWhile p l) :=
  chain'_dropLastWhile p h

theorem noWsRun_trimL {l : List Char} (h : NoWsRun l) : NoWsRun (trimL l) :=
  chain'_trimL h

theorem noWsRun_dotDrop {l : List Char} (h : NoWsRun l) :
    NoWsRun (if l.getLast? = some '.' then l.dropLast else l) := by
  show List.Chain' noWsPair _
  split
  · exact chain'_dropLast h
  · exact h

theorem mem_collapseWs (l : List Char) (c : Char) (h : c ∈ collapseWs l) :
    c = ' ' ∨ c ∈ l :=
  mem_collapseWsAux l false c (by rwa [collapseWs] at h)

theorem cleanList_trim (l : List Char) : trimL (cleanList l) = cleanList l := by
  simp only [cleanList]
  exact trimL_idem _

theorem cleanList_ws_space (l : List Char) :
    ∀ c ∈ cleanList l, isJsWs c = true → c = ' ' := by
  intro c hc hw
  simp only [cleanList] at hc
  have hc2 := mem_of_trimL _ c hc
  split at hc2
  · exact collapseWs_ws_space _ c
      (mem_of_dropWhile _ _ c (mem_of_dropLastWhile _ _ c (mem_of_dropLast hc2))) hw
  · exact collapseWs_ws_space _ c
      (mem_of_dropWhile _ _ c (mem_of_dropLastWhile _ _ c hc2)) hw

theorem noWsRunTail (m : List Char) : NoWsRun (cleanTail m) := by
  rw [cleanTail]
  exact noWsRun_trimL (noWsRun_dotDrop
    (noWsRun_dropLastWhile _ (noWsRun_dropWhile _ (noWsRun_collapseWs _))))

theorem cleanList_eq_cleanTail (l : List Char) :
    cleanList l = cleanTail
      (replaceChars [Char.ofNat 0x201A] ['\'']
        (replaceChars [Char.ofNat 0x201E] ['"']
          (replaceChars [Char.ofNat 0x2018, Char.ofNat 0x2019] ['\'']
            (replaceChars [Char.ofNat 0x201C, Char.ofNat 0x201D] ['"']
              (replaceChars [Char.ofNat 0x2026] ['.', '.', '.']
                (replaceChars [Char.ofNat 0x00A0] [' ']
                  (entityPairs.foldl
                    (fun acc p => replaceAllL p.1.data p.2.data acc) (trimL l)))))))) := by
  simp only [cleanList, cleanTail]

section
attribute [local irreducible] entityPairs replaceChars replaceAllL collapseWs trimL dropLastWhile cleanTail cleanList

theorem cleanList_chain (l : List Char) :
    NoWsRun (cleanList l) := by
  rw [cleanList_eq_cleanTail]
  exact noWsRunTail _

theorem cleanList_no_special (l : List Char) :
    ∀ c ∈ cleanList l, c ∉ specialChars := by
  intro c hc hmem
  simp only [cleanList] at hc
  have hc2 := mem_of_trimL _ c hc
  have hcol : c ∈ collapseWs (replaceChars [Char.ofNat 0x201A] ['\'']
      (replaceChars [Char.ofNat 0x201E] ['"']
        (replaceChars [Char.ofNat 0x2018, Char.ofNat 0x2019] ['\'']
          (replaceChars [Char.ofNat 0x201C, Char.ofNat 0x201D] ['"']
            (replaceChars [Char.ofNat 0x2026] ['.', '.', '.']
              (replaceChars [Char.ofNat 0x00A0] [' ']
                (entityPairs.foldl
                  (fun acc p => replaceAllL p.1.data p.2.data acc) (trimL l)))))))) := by
    split at hc2
    · exact mem_of_dropWhile _ _ c (mem_of_dropLastWhile _ _ c (mem_of_dropLast hc2))
    · exact mem_of_dropWhile _ _ c (mem_of_dropLastWhile _ _ c hc2)
  rcases mem_collapseWs _ c hcol with rfl | h7
  · exact absurd hmem (by decide)
  rcases mem_replaceChars _ _ _ c h7 with h | ⟨h6, hn7⟩
  · rcases List.mem_singleton.mp h with rfl
    exact absurd hmem (by decide)
  rcases mem_replaceChars _ _ _ c h6 with h | ⟨h5, hn6⟩
  · rcases List.mem_singleton.mp h with rfl
    exact absurd hmem (by decide)
  rcases mem_replaceChars _ _ _ c h5 with h | ⟨h4, hn5⟩
  · rcases List.mem_singleton.mp h with rfl
    exact absurd hmem (by decide)
  rcases mem_replaceChars _ _ _ c h4 with h | ⟨h3, hn4⟩
  · rcases List.mem_singleton.mp h with rfl
    exact absurd hmem (by decide)
  rcases mem_replaceChars _ _ _ c h3 with h | ⟨h2c, hn3⟩
  · have hdot : c = '.' := by
      simpa using h
    subst hdot
    exact absurd hmem (by decide)
  rcases mem_replaceChars _ _ _ c h2c with h | ⟨h1c, hn2⟩
  · rcases List.mem_singleton.mp h with rfl
    exact absurd hmem (by decide)
  simp only [specialChars, List.mem_cons, List.not_mem_nil, or_false] at hmem
  simp at hn2 hn3 hn4 hn5 hn6 hn7
  rcases hmem with rfl | rfl | rfl | rfl | rfl | rfl | rfl | rfl <;> simp_all

set_option maxHeartbeats 2000000 in
/-- C3 (amended): the normalizer is idempotent on every string whose
normalized form contains no entity sequence from the entity table, does not
begin with a strippable quote character, and does not end with a strippable
quote character or a period.  (In general idempotence fails: a second pass
can strip one more trailing period, an exposed edge quote, or an entity
recreated by `&amp;` decoding.) -/
theorem cleanSearchText_idem_of (s : String)
    (hent : entityPairs.any (fun p => jsIncludes (cleanSearchText s) p.1) = false)
    (hhead : headIsStripQuote (cleanSearchText s).data = false)
    (hlast : lastStripsMore (cleanSearchText s).data = false) :
    cleanSearchText (cleanSearchText s) = cleanSearchText s := by
  have hws := cleanList_ws_space s.data
  have hch := cleanList_chain s.data
  have hsp := cleanList_no_special s.data
  have h0 : trimL (cleanList s.data) = cleanList s.data := cleanList_trim s.data
  have hentq : ∀ p ∈ entityPairs, hasSub p.1.data (cleanList s.data) = false := by
    rw [List.any_eq_false] at hent
    intro p hp
    exact Bool.eq_false_iff.mpr
      (fun hq => hent p hp (show jsIncludes (cleanSearchText s) p.1 = true from hq))
  have hheadq : ∀ c, (cleanList s.data).head? = some c → isStripQuote c = false := by
    intro c hc
    simp only [headIsStripQuote] at hhead
    rw [show (cleanSearchText s).data = cleanList s.data from rfl, hc] at hhead
    exact hhead
  have hlastq : ∀ c, (cleanList s.data).getLast? = some c →
      isStripQuote c = false ∧ c ≠ '.' := by
    intro c hc
    simp only [lastStripsMore] at hlast
    rw [show (cleanSearchText s).data = cleanList s.data from rfl, hc] at hlast
    rcases Bool.or_eq_false_iff.mp hlast with ⟨hq, hdot⟩
    refine ⟨hq, ?_⟩
    intro hdotq
    subst hdotq
    simp at hdot
  have hnos : ∀ as : List Char, (∀ x ∈ as, x ∈ specialChars) →
      ∀ c ∈ cleanList s.data, as.contains c = false := by
    intro as hsub c hc
    by_contra hb
    have hcm : c ∈ as := by simpa using Bool.of_not_eq_false hb
    exact hsp c hc (hsub c hcm)
  suffices hgoal : cleanList (cleanList s.data) = cleanList s.data by
    rw [show cleanSearchText (cleanSearchText s) =
        String.mk (cleanList (cleanList s.data)) from rfl,
      show cleanSearchText s = String.mk (cleanList s.data) from rfl, hgoal]
  conv_lhs => rw [cleanList]
  rw [h0, entityFold_id _ hentq,
    replaceChars_id _ _ _ (hnos [Char.ofNat 0x00A0] (by decide)),
    replaceChars_id _ _ _ (hnos [Char.ofNat 0x2026] (by decide)),
    replaceChars_id _ _ _ (hnos [Char.ofNat 0x201C, Char.ofNat 0x201D] (by decide)),
    replaceChars_id _ _ _ (hnos [Char.ofNat 0x2018, Char.ofNat 0x2019] (by decide)),
    replaceChars_id _ _ _ (hnos [Char.ofNat 0x201E] (by decide)),
    replaceChars_id _ _ _ (hnos [Char.ofNat 0x201A] (by decide)),
    collapseWs_eq_self _ hws hch,
    dropWhile_eq_self_of_head isStripQuote _ hheadq,
    dropLastWhile_eq_self_of_getLast isStripQuote _ (fun c hc => (hlastq c hc).1),
    if_neg (fun hcon => (hlastq '.' hcon).2 rfl), h0]

end

/-- C3 is false as stated: normalizing `a..` yields `a.`, and normalizing
again strips another period. -/
theorem cleanSearchText_counterexample :
    cleanSearchText (cleanSearchText "a..") ≠ cleanSearchText "a.." := by
  decide

/-- Witness for `cleanSearchText_idem_of` at a concrete clean string. -/
theorem cleanSearchText_idem_witness :
    cleanSearchText (cleanSearchText "hello world") = cleanSearchText "hello world" :=
  cleanSearchText_idem_of "hello world" (by decide) (by decide) (by decide)

end TextProcessor
